import Mathlib

/-!
Verification of the StackLang interpreter (src/src/StackLang.ts).

The interpreter is a small PostScript-like stack machine: it tokenizes
whitespace-separated source text, maintains an operand stack, a chain of
lexical scopes, and a stack of pending block literals, and executes native
operators against that state while emitting observable events.

JavaScript numbers are modelled as exact rational pairs (`JNum`): every
arithmetic operation of the claims acts on small integer-valued literals,
where pair arithmetic coincides with IEEE double arithmetic.  Exceptions
are modelled with `Except`; a computation result carries the list of
events emitted before it finished or aborted.  The recursive `eval` of the
source is not structurally terminating (a named Block can invoke itself),
so evaluation takes a fuel parameter bounding the nesting depth of
operator invocations; fuel is consumed only when an Operator is resolved.
-/

/-- Model of a JavaScript number: an exact rational represented as a
numerator/denominator pair, without normalization (all operations used by
the claims produce the canonical pair on integer inputs). -/
structure JNum where
  n : Int
  d : Int
deriving DecidableEq, Repr

instance : OfNat JNum k := ⟨⟨k, 1⟩⟩

/-- `left.num + right.num` of `Vm.add` (StackLang.ts:157). -/
def JNum.add (a b : JNum) : JNum := ⟨a.n * b.d + b.n * a.d, a.d * b.d⟩

/-- `left.num - right.num` of `Vm.sub` (StackLang.ts:173). -/
def JNum.sub (a b : JNum) : JNum := ⟨a.n * b.d - b.n * a.d, a.d * b.d⟩

/-- `left.num * right.num` of `Vm.mul` (StackLang.ts:189). -/
def JNum.mul (a b : JNum) : JNum := ⟨a.n * b.n, a.d * b.d⟩

/-- `left.num / right.num` of `Vm.div` (StackLang.ts:205), with the sign
kept on the numerator so denominators of reachable values stay positive. -/
def JNum.div (a b : JNum) : JNum :=
  if b.n < 0 then ⟨-(a.n * b.d), -(a.d * b.n)⟩ else ⟨a.n * b.d, a.d * b.n⟩

/-- `left.num < right.num` of `Vm.lt` (StackLang.ts:221), valid for the
positive denominators of reachable values. -/
def JNum.lt (a b : JNum) : Bool := decide (a.n * b.d < b.n * a.d)

/-- The nine native operators installed in the base scope
(StackLang.ts:31-66).  The source stores bound closures; they are in
one-to-one correspondence with this enumeration. -/
inductive NativeOp where
  | add | sub | mul | div | lt | opIf | opDef | opExch | puts
deriving DecidableEq, Repr

/-- The `Value` union of StackLang.ts:300-305. -/
inductive Value where
  | Num (num : JNum)
  | Operator (op : String)
  | Symbol (sym : String)
  | Block (values : List Value)
  | Native (fn : NativeOp)

/-- One scope: a `Record<string, Value>` modelled as an association list
in insertion order (keys are unique because `opDef` never overwrites). -/
abbrev Scope := List (String × Value)

/-- `VmState` of StackLang.ts:20-24.  `stack` and `vars` have their
JavaScript array END (the push/pop end, `at(-1)`) at the list HEAD, so
`vars` is ordered innermost scope first, base scope last; `blocks` has
the innermost open block first, and each open block body is kept in
captured order. -/
structure VmState where
  stack : List Value
  vars : List Scope
  blocks : List (List Value)

/-- `VmEvent` of StackLang.ts:15-18. -/
inductive VmEvent where
  | state (s : VmState)
  | puts (v : Value)
  | stackPop (s : VmState) (v : Value)

/-- The distinct `throw new Error(...)` sites of StackLang.ts, plus
`outOfFuel` for exhaustion of the artificial recursion bound. -/
inductive VmErr where
  /-- `Stack pop error` (StackLang.ts:77): a pop found the stack empty. -/
  | stackPopError
  /-- `Block stack underflow` (StackLang.ts:90). -/
  | blockStackUnderflow
  /-- `<op> is not a defined operation` (StackLang.ts:118). -/
  | notDefined (op : String)
  /-- `Expect Num Num <name>` (StackLang.ts:156,172,188,204,220). -/
  | expectNums (name : String)
  /-- `Expect block (...)` (StackLang.ts:229,233,237). -/
  | expectBlock
  /-- `Expect num (...)` (StackLang.ts:245). -/
  | expectNum
  /-- `Expect symbol (...)` (StackLang.ts:270). -/
  | expectSymbol
  /-- `vars.at(-1)!` found no scope (unreachable from the initial state). -/
  | noScope
  /-- The artificial nesting bound was reached. -/
  | outOfFuel
deriving DecidableEq, Repr

/-- Result of a model computation: the events emitted (in order) before
it returned or aborted, and the final state or the error.  A generator
that throws still delivers the events it yielded first. -/
abbrev Res := List VmEvent × Except VmErr VmState

/-- Sequencing: on error the continuation never runs and contributes no
events (the JavaScript exception propagates). -/
def bindRes (r : Res) (k : VmState → Res) : Res :=
  match r with
  | (evs, .error e) => (evs, .error e)
  | (evs, .ok s) =>
    match k s with
    | (evs2, r2) => (evs ++ evs2, r2)

/-- Prepend already-emitted events to a result. -/
def prependEvs (es : List VmEvent) (r : Res) : Res :=
  match r with
  | (evs, r2) => (es ++ evs, r2)

/-- Key lookup in one scope (`varMap[word]`, StackLang.ts:139). -/
def lookupScope : Scope → String → Option Value
  | [], _ => none
  | (k, v) :: rest, w => if k = w then some v else lookupScope rest w

/-- `Vm.findVar` (StackLang.ts:136-143): first match scanning from the
innermost scope toward the base. -/
def findVar : List Scope → String → Option Value
  | [], _ => none
  | sc :: rest, w =>
    match lookupScope sc w with
    | some v => some v
    | none => findVar rest w

/-- `vars.at(-1)![symbol.sym] ??= evalResult` (StackLang.ts:272): bind
only if the name is not already bound in this scope. -/
def scopeDefInsert (sc : Scope) (sym : String) (v : Value) : Scope :=
  match lookupScope sc sym with
  | some _ => sc
  | none => sc ++ [(sym, v)]

/-- Evaluate a list of values in order (`for (const v of ...) eval(v)`),
parameterized by the evaluator so the fuel recursion stays structural. -/
def evalSeq (ev : Value → VmState → Res) : List Value → VmState → Res
  | [], s => ([], .ok s)
  | v :: vs, s => bindRes (ev v s) (evalSeq ev vs)

/-- Shared body of the binary arithmetic/comparison natives
(StackLang.ts:145-223): pop right (pop event), pop left (pop event),
require two Numbers, push the result, emit a state snapshot. -/
def arithBin (name : String) (f : JNum → JNum → JNum) (s : VmState) : Res :=
  match s.stack with
  | [] => ([], .error .stackPopError)
  | r :: stk1 =>
    let s1 : VmState := { s with stack := stk1 }
    match stk1 with
    | [] => ([.stackPop s1 r], .error .stackPopError)
    | l :: stk2 =>
      let s2 : VmState := { s with stack := stk2 }
      match r, l with
      | .Num rn, .Num ln =>
        let s3 : VmState := { s with stack := .Num (f ln rn) :: stk2 }
        ([.stackPop s1 r, .stackPop s2 l, .state s3], .ok s3)
      | _, _ => ([.stackPop s1 r, .stackPop s2 l], .error (.expectNums name))

/-- The native operator bodies (StackLang.ts:145-297), parameterized by
the evaluator used for their recursive `this.eval(...)` calls.  Note the
source quirk that `lt`'s type-error message names `/` (StackLang.ts:220),
and that the `== null` checks after a `stackPopEvent` call are dead code
because `stackPopEvent` itself throws on `undefined` (StackLang.ts:77). -/
def runNative (ev : Value → VmState → Res) : NativeOp → VmState → Res
  | .add, s => arithBin "+" JNum.add s
  | .sub, s => arithBin "-" JNum.sub s
  | .mul, s => arithBin "*" JNum.mul s
  | .div, s => arithBin "/" JNum.div s
  | .lt, s => arithBin "/" (fun a b => if JNum.lt a b then 1 else 0) s
  | .opIf, s =>
    match s.stack with
    | [] => ([], .error .stackPopError)
    | fb :: stk1 =>
      let s1 : VmState := { s with stack := stk1 }
      match fb with
      | .Block fbv =>
        match stk1 with
        | [] => ([.stackPop s1 fb], .error .stackPopError)
        | tb :: stk2 =>
          let s2 : VmState := { s with stack := stk2 }
          match tb with
          | .Block tbv =>
            match stk2 with
            | [] => ([.stackPop s1 fb, .stackPop s2 tb], .error .stackPopError)
            | cond :: stk3 =>
              let s3 : VmState := { s with stack := stk3 }
              match cond with
              | .Block cbv =>
                prependEvs [.stackPop s1 fb, .stackPop s2 tb, .stackPop s3 cond]
                  (bindRes (evalSeq ev cbv s3) (fun s4 =>
                    match s4.stack with
                    | [] => ([], .error .stackPopError)
                    | cr :: stk5 =>
                      let s5 : VmState := { s4 with stack := stk5 }
                      match cr with
                      | .Num crn =>
                        prependEvs [.stackPop s5 cr]
                          (if crn.n = 0 then evalSeq ev fbv s5 else evalSeq ev tbv s5)
                      | _ => ([.stackPop s5 cr], .error .expectNum)))
              | _ => ([.stackPop s1 fb, .stackPop s2 tb, .stackPop s3 cond], .error .expectBlock)
          | _ => ([.stackPop s1 fb, .stackPop s2 tb], .error .expectBlock)
      | _ => ([.stackPop s1 fb], .error .expectBlock)
  | .opDef, s =>
    match s.stack with
    | [] => ([], .error .stackPopError)
    | value :: stk1 =>
      let s1 : VmState := { s with stack := stk1 }
      prependEvs [.stackPop s1 value]
        (bindRes (ev value s1) (fun s2 =>
          match s2.stack with
          | [] => ([], .error .stackPopError)
          | evalResult :: stk3 =>
            let s3 : VmState := { s2 with stack := stk3 }
            match stk3 with
            | [] => ([.stackPop s3 evalResult], .error .stackPopError)
            | symv :: stk4 =>
              let s4 : VmState := { s2 with stack := stk4 }
              match symv with
              | .Symbol sym =>
                match s4.vars with
                | [] => ([.stackPop s3 evalResult, .stackPop s4 symv], .error .noScope)
                | top :: varsRest =>
                  let s5 : VmState := { s4 with vars := scopeDefInsert top sym evalResult :: varsRest }
                  ([.stackPop s3 evalResult, .stackPop s4 symv, .state s5], .ok s5)
              | _ => ([.stackPop s3 evalResult, .stackPop s4 symv], .error .expectSymbol)))
  | .opExch, s =>
    match s.stack with
    | [] => ([], .error .stackPopError)
    | last :: stk1 =>
      let s1 : VmState := { s with stack := stk1 }
      match stk1 with
      | [] => ([.stackPop s1 last], .error .stackPopError)
      | second :: stk2 =>
        let s2 : VmState := { s with stack := stk2 }
        prependEvs [.stackPop s1 last, .stackPop s2 second]
          (bindRes (ev second s2) (fun s3 =>
            let s4 : VmState := { s3 with stack := last :: s3.stack }
            let s5 : VmState := { s3 with stack := second :: last :: s3.stack }
            ([.state s4, .state s5], .ok s5)))
  | .puts, s =>
    match s.stack with
    | [] => ([], .error .stackPopError)
    | v :: stk1 =>
      let s1 : VmState := { s with stack := stk1 }
      ([.stackPop s1 v, .puts v], .ok s1)

/-- One unfolding of `Vm.eval` (StackLang.ts:104-134) with `recEv` for
the recursive evaluation of captured/looked-up values: while a block is
open, append the value to its body; a non-Operator value is pushed; an
Operator is looked up, a Block invocation pushes a fresh scope, runs the
body, then pops the scope, a Native runs its body, and any other found
value is pushed. -/
def evalStep (recEv : Value → VmState → Res) (code : Value) (s : VmState) : Res :=
  match s.blocks with
  | b :: brest =>
    let s' : VmState := { s with blocks := (b ++ [code]) :: brest }
    ([.state s'], .ok s')
  | [] =>
    match code with
    | .Operator op =>
      match findVar s.vars op with
      | none => ([], .error (.notDefined op))
      | some (.Block bv) =>
        let s1 : VmState := { s with vars := [] :: s.vars }
        match evalSeq recEv bv s1 with
        | (evs, .error e) => (VmEvent.state s1 :: evs, .error e)
        | (evs, .ok s2) =>
          let s3 : VmState := { s2 with vars := s2.vars.tail }
          (VmEvent.state s1 :: evs ++ [.state s3], .ok s3)
      | some (.Native nop) => runNative recEv nop s
      | some v =>
        let s' : VmState := { s with stack := v :: s.stack }
        ([.state s'], .ok s')
    | c =>
      let s' : VmState := { s with stack := c :: s.stack }
      ([.state s'], .ok s')

/-- `Vm.eval` with a fuel bound on the nesting depth of Operator
resolution; values that are merely captured or pushed need no fuel. -/
def evalV : Nat → Value → VmState → Res
  | 0 => evalStep (fun _ _ => ([], .error .outOfFuel))
  | n + 1 => evalStep (evalV n)

/-- JavaScript `String.prototype.split` with a single-character
separator, on character lists (`""` splits to `[""]`). -/
def splitOnChar (c : Char) : List Char → List (List Char)
  | [] => [[]]
  | x :: xs =>
    if x = c then [] :: splitOnChar c xs
    else
      match splitOnChar c xs with
      | [] => [[x]]
      | h :: t => (x :: h) :: t

/-- Decimal digit span: the longest digit prefix and the remainder. -/
def takeDigits : List Char → List Char × List Char
  | [] => ([], [])
  | c :: cs =>
    if c.isDigit then
      let (d, r) := takeDigits cs
      (c :: d, r)
    else ([], c :: cs)

/-- Numeric value of a digit character. -/
def digitVal (c : Char) : Nat := c.toNat - 48

/-- Numeric value of a digit string, most significant digit first. -/
def digitsVal (ds : List Char) : Nat := ds.foldl (fun a c => a * 10 + digitVal c) 0

/-- Mantissa of a decimal literal prefix: digits, optionally followed by
a point and more digits; at least one digit in total. -/
def parseMantissa (cs : List Char) : Option (JNum × List Char) :=
  let (ip, r1) := takeDigits cs
  match r1 with
  | '.' :: r2 =>
    let (fp, r3) := takeDigits r2
    if ip = [] ∧ fp = [] then none
    else some (⟨(digitsVal ip * 10 ^ fp.length + digitsVal fp : Nat), ((10 : Nat) ^ fp.length : Nat)⟩, r3)
  | _ => if ip = [] then none else some (⟨(digitsVal ip : Nat), 1⟩, r1)

/-- Apply a trailing exponent part (`e`/`E`, optional sign, digits) to a
mantissa; an exponent without digits is not consumed. -/
def applyExp (q : JNum) (cs : List Char) : JNum :=
  match cs with
  | c :: rest =>
    if c = 'e' ∨ c = 'E' then
      match rest with
      | '+' :: r2 => expDigits q r2 false
      | '-' :: r2 => expDigits q r2 true
      | r2 => expDigits q r2 false
    else q
  | [] => q
where
  expDigits (q : JNum) (cs : List Char) (neg : Bool) : JNum :=
    let ds := (takeDigits cs).1
    if ds = [] then q
    else if neg then ⟨q.n, q.d * (10 : Nat) ^ digitsVal ds⟩
    else ⟨q.n * (10 : Nat) ^ digitsVal ds, q.d⟩

/-- Modelled from the spec: JavaScript `Number.parseFloat`
(StackLang.ts:93), a built-in of the host language whose code is not in
the repository.  Per the ECMAScript decimal grammar it skips leading
whitespace, reads an optional sign and the longest decimal-literal
prefix (digits, optional fraction, optional exponent), returns its
value, and returns NaN (`none` here) when no such prefix exists;
trailing characters are ignored.  The `Infinity` production is outside
the model. -/
def jsParseFloat (w : String) : Option JNum :=
  let cs := w.data.dropWhile Char.isWhitespace
  match cs with
  | '-' :: r =>
    (parseMantissa r).map (fun p => let q := applyExp p.1 p.2; ⟨-q.n, q.d⟩)
  | '+' :: r => (parseMantissa r).map (fun p => applyExp p.1 p.2)
  | r => (parseMantissa r).map (fun p => applyExp p.1 p.2)

/-- `Vm.parse` (StackLang.ts:81-102): an empty word only snapshots the
state; `{` opens a block; `}` closes one (snapshot first, then the
underflow check, then evaluation of the captured Block); otherwise the
word is classified as Number, Symbol (leading `/`), or Operator. -/
def parseWord (fuel : Nat) (w : String) (s : VmState) : Res :=
  if w = "" then ([.state s], .ok s)
  else if w = "\x7b" then
    let s' : VmState := { s with blocks := [] :: s.blocks }
    ([.state s'], .ok s')
  else if w = "\x7d" then
    match s.blocks with
    | [] => ([.state s], .error .blockStackUnderflow)
    | b :: brest =>
      let s' : VmState := { s with blocks := brest }
      prependEvs [.state s'] (evalV fuel (.Block b) s')
  else
    match jsParseFloat w with
    | some q => evalV fuel (.Num q) s
    | none =>
      match w.data with
      | '/' :: restChars => evalV fuel (.Symbol (String.mk restChars)) s
      | _ => evalV fuel (.Operator w) s

/-- Feed a token list to the machine in order (`StackLang.run`,
StackLang.ts:5-12); an error aborts the remaining tokens. -/
def parseTokens (fuel : Nat) : List String → VmState → Res
  | [], s => ([], .ok s)
  | w :: ws, s => bindRes (parseWord fuel w s) (parseTokens fuel ws)

/-- The base scope of natives (StackLang.ts:29-68), in source order. -/
def baseScope : Scope :=
  [("+", .Native .add), ("-", .Native .sub), ("*", .Native .mul), ("/", .Native .div),
   ("<", .Native .lt), ("if", .Native .opIf), ("def", .Native .opDef),
   ("exch", .Native .opExch), ("puts", .Native .puts)]

/-- The initial `Vm.state` (StackLang.ts:27-70). -/
def initState : VmState := ⟨[], [baseScope], []⟩

/-- `StackLang.run` (StackLang.ts:5-12): an initial state snapshot, then
every token in order. -/
def runTokens (fuel : Nat) (toks : List String) (s : VmState) : Res :=
  prependEvs [.state s] (parseTokens fuel toks s)

/-- Tokenization of `StackLang.run` (StackLang.ts:7-8): split the source
on newlines, then each line on single spaces. -/
def tokenize (program : String) : List String :=
  ((splitOnChar '\n' program.data).map (fun line => (splitOnChar ' ' line).map String.mk)).flatten

/-- Run a whole program from the initial state. -/
def runProgram (fuel : Nat) (program : String) : Res :=
  runTokens fuel (tokenize program) initState

/-- The final operand stack of a run (or its error). -/
def finalStack (r : Res) : Except VmErr (List Value) := r.2.map VmState.stack

/-- Decimal digits of a natural number, most significant first, by fuel
(`fuel > n` suffices). -/
def natChars : Nat → Nat → List Char
  | 0, _ => []
  | f + 1, n => if n < 10 then [Nat.digitChar n] else natChars f (n / 10) ++ [Nat.digitChar (n % 10)]

/-- Decimal digits of a natural number. -/
def natStr (n : Nat) : List Char := natChars (n + 1) n

/-- Decimal representation of an integer, as JavaScript prints an
integral number. -/
def intChars (z : Int) : List Char :=
  if z < 0 then '-' :: natStr z.natAbs else natStr z.natAbs

/-- Exactly `k` decimal digits of `m % 10 ^ k`, most significant first,
zero-padded: the digits printed after a decimal point. -/
def natCharsPad : Nat → Nat → List Char
  | 0, _ => []
  | k + 1, m => natCharsPad k (m / 10) ++ [Nat.digitChar (m % 10)]

/-- `some k` when the integer `d` is `10 ^ k`, else `none`; fuel-driven
(any `fuel > k` suffices for `d = 10 ^ k`). -/
def pow10Aux : Nat → Int → Option Nat
  | 0, _ => none
  | f + 1, d =>
    if d = 1 then some 0
    else if d % 10 = 0 ∧ d ≠ 0 then (pow10Aux f (d / 10)).map Nat.succ
    else none

/-- The exponent of a power-of-ten denominator, if it is one. -/
def pow10 (d : Int) : Option Nat := pow10Aux (d.natAbs + 1) d

/-- Drop factors of ten common to the numerator and the power-of-ten
denominator: JavaScript never prints a fraction ending in a zero digit
(the literal `0.50` is the double `0.5` and prints as `0.5`). -/
def stripDec : Nat → Int → Nat × Int
  | 0, m => (0, m)
  | k + 1, m => if m % 10 = 0 then stripDec k (m / 10) else (k + 1, m)

/-- The characters JavaScript `"" + num` prints for the exact value
`m / 10 ^ k` once trailing fraction zeros are stripped: the plain
integer for `k = 0`, otherwise sign, integer part, decimal point, and
exactly `k` zero-padded fraction digits (`25 / 10` prints `2.5`,
`5 / 10` prints `0.5`, `105 / 100` prints `1.05`).  JavaScript's switch
to exponent notation at extreme magnitudes is outside the model. -/
def decCharsCanon (k : Nat) (m : Int) : List Char :=
  if k = 0 then intChars m
  else (if m < 0 then ['-'] else [])
    ++ natStr (m.natAbs / 10 ^ k) ++ '.' :: natCharsPad k (m.natAbs % 10 ^ k)

/-- `serializeValue` of the display layer (src/unnamed/part_000:111-124)
at character-list level: a Number prints as JavaScript `"" + num` — the
machine only ever holds pairs whose denominator is a power of ten
(`parseFloat` constructs such pairs, the `+ - * <` natives preserve
them, and the division native is unreachable because a bare `/` parses
as a Symbol), and on those the exact positional decimal form is
printed with trailing fraction zeros stripped; other denominators fall
back to an `n/d` form never reached by machine values, kept only for
totality — a Native as `<Native>`, a Symbol as its bare name (without
the leading slash), an Operator as its name, and a Block as
`{ v1 ... vn }` joined by single spaces. -/
def serializeChars : Value → List Char
  | .Num q =>
    match pow10 q.d with
    | some k =>
      match stripDec k q.n with
      | (k2, m2) => decCharsCanon k2 m2
    | none => intChars q.n ++ '/' :: intChars q.d
  | .Native _ => "<Native>".data
  | .Symbol sym => sym.data
  | .Operator op => op.data
  | .Block vs => '\x7b' :: ' ' :: serJoin vs ++ [' ', '\x7d']
where
  serJoin : List Value → List Char
    | [] => []
    | [v] => serializeChars v
    | v :: vs => serializeChars v ++ ' ' :: serJoin vs

/-- `serializeValue` (src/unnamed/part_000:111-124). -/
def serializeValue (v : Value) : String := ⟨serializeChars v⟩

/-- The token list a serialized value splits into. -/
def serTokens (v : Value) : List String := (splitOnChar ' ' (serializeChars v)).map String.mk

/-- Values that can appear inside a Block captured from source text and
that are built only from number literals, plain operator words and
nested such blocks (no Symbols, no Natives).  A number is taken in
canonical form `m / 10 ^ k` with the fraction not ending in a zero
digit: every machine number has a power-of-ten denominator, and the
canonical pair is the model's unique representative of the JavaScript
double (the literal `2.50` denotes the same double as `2.5` and
serializes identically).  The side conditions on an Operator word are
exactly those under which `Vm.parse` classifies the word as that
Operator. -/
inductive Capturable : Value → Prop where
  | num (m : Int) (k : Nat) : k = 0 ∨ m % 10 ≠ 0 → Capturable (.Num ⟨m, (10 : Int) ^ k⟩)
  | op (w : String) :
      w ≠ "" → w ≠ "\x7b" → w ≠ "\x7d" →
      jsParseFloat w = none → (∀ r, w.data ≠ '/' :: r) →
      ' ' ∉ w.data → '\n' ∉ w.data →
      Capturable (.Operator w)
  | block (vs : List Value) : (∀ v ∈ vs, Capturable v) → Capturable (.Block vs)

/-- Tokens of the RPN fragment: number literals and the four arithmetic
operator words. -/
inductive ArithTok where
  | anum (q : JNum)
  | aadd | asub | amul | adiv

/-- One step of ordinary left-to-right RPN evaluation: a number is
pushed; an operator pops the right operand, then the left, and pushes
`left OP right`. -/
def rpnStep : ArithTok → List JNum → Option (List JNum)
  | .anum q, qs => some (q :: qs)
  | .aadd, r :: l :: qs => some (JNum.add l r :: qs)
  | .aadd, _ => none
  | .asub, r :: l :: qs => some (JNum.sub l r :: qs)
  | .asub, _ => none
  | .amul, r :: l :: qs => some (JNum.mul l r :: qs)
  | .amul, _ => none
  | .adiv, r :: l :: qs => some (JNum.div l r :: qs)
  | .adiv, _ => none

/-- Ordinary left-to-right RPN evaluation of a token sequence. -/
def rpnEval : List ArithTok → List JNum → Option (List JNum)
  | [], qs => some qs
  | t :: ts, qs =>
    match rpnStep t qs with
    | none => none
    | some qs' => rpnEval ts qs'

/-- Classify a word of the RPN fragment the way `Vm.parse` does: words
the machine reads as Numbers become number tokens, and the operator
words `+ - *` become operator tokens.  The word `/` is excluded: the
machine classifies it as the Symbol with empty name (leading-slash rule,
StackLang.ts:96-97), so it never reaches the division native. -/
def classifyArith (w : String) : Option ArithTok :=
  if w = "" ∨ w = "\x7b" ∨ w = "\x7d" then none
  else
    match jsParseFloat w with
    | some q => some (.anum q)
    | none =>
      if w = "+" then some .aadd
      else if w = "-" then some .asub
      else if w = "*" then some .amul
      else none

/-- Classify every word of an RPN-fragment program. -/
def classifyAriths : List String → Option (List ArithTok)
  | [] => some []
  | w :: ws =>
    match classifyArith w, classifyAriths ws with
    | some t, some ts => some (t :: ts)
    | _, _ => none

/-- Does a state's operand stack contain a given number? -/
def stackHasNum (q : JNum) (st : VmState) : Bool :=
  st.stack.any (fun v => match v with | .Num q' => q' == q | _ => false)

/-- Does an event's state snapshot show a given number on the stack? -/
def evHasNum (q : JNum) : VmEvent → Bool
  | .state st => stackHasNum q st
  | .stackPop st _ => stackHasNum q st
  | .puts _ => false

/-- Lookup-monotonicity between scopes: every binding of `a` is intact
in `b` (scopes only ever grow by `def`). -/
def scopeLe (a b : Scope) : Prop :=
  ∀ k v, lookupScope a k = some v → lookupScope b k = some v

/-- A scope still carries all nine native operator bindings. -/
def hasNatives (sc : Scope) : Prop :=
  lookupScope sc "+" = some (.Native .add) ∧
  lookupScope sc "-" = some (.Native .sub) ∧
  lookupScope sc "*" = some (.Native .mul) ∧
  lookupScope sc "/" = some (.Native .div) ∧
  lookupScope sc "<" = some (.Native .lt) ∧
  lookupScope sc "if" = some (.Native .opIf) ∧
  lookupScope sc "def" = some (.Native .opDef) ∧
  lookupScope sc "exch" = some (.Native .opExch) ∧
  lookupScope sc "puts" = some (.Native .puts)

/-- A scope chain is nonempty and its base (index 0 in the source, the
last element here) still carries the native bindings. -/
def baseOk (vs : List Scope) : Prop :=
  vs ≠ [] ∧ ∃ b, vs.getLast? = some b ∧ hasNatives b

/-- An event's snapshot (if any) has a healthy scope chain. -/
def evBaseOk : VmEvent → Prop
  | .state st => baseOk st.vars
  | .stackPop st _ => baseOk st.vars
  | .puts _ => True

/-- During evaluation below a scope split `sc :: rest`: an event
snapshot's scope chain extends the same `rest`, with the scope at the
split position only grown by definitions. -/
def evOk (sc : Scope) (rest : List Scope) : VmEvent → Prop
  | .state st => ∃ ext sc', st.vars = ext ++ sc' :: rest ∧ scopeLe sc sc'
  | .stackPop st _ => ∃ ext sc', st.vars = ext ++ sc' :: rest ∧ scopeLe sc sc'
  | .puts _ => True

/-- Soundness of an evaluator with respect to the scope-chain frame: at
any split `sc :: rest` of the chain (with no open block), every emitted
event extends `rest`, and a normal return leaves exactly `rest` below a
grown `sc`, with no open block. -/
def EvalOK (ev : Value → VmState → Res) : Prop :=
  ∀ code stk sc rest evs r,
    ev code ⟨stk, sc :: rest, []⟩ = (evs, r) →
    (∀ e ∈ evs, evOk sc rest e) ∧
    ∀ s', r = .ok s' → ∃ sc' stk', s' = ⟨stk', sc' :: rest, []⟩ ∧ scopeLe sc sc'

example : JNum.add 3 4 = 7 := rfl

example : tokenize "3 4 +" = ["3", "4", "+"] := rfl

example : jsParseFloat "10" = some ⟨10, 1⟩ := rfl

example : jsParseFloat "3abc" = some ⟨3, 1⟩ := rfl

example : jsParseFloat "+" = none := rfl

example : finalStack (runProgram 9 "3 4 +") = .ok [.Num 7] := rfl

example : finalStack (runProgram 9 "10 2 -") = .ok [.Num 8] := rfl

example : finalStack (runProgram 9 "/x 10 def x") = .ok [.Num 10] := rfl

example : finalStack (runProgram 9 "\x7b 1 2 + \x7d") = .ok [.Block [.Num 1, .Num 2, .Operator "+"]] := rfl

example : (runProgram 9 "1 \x7b 2 \x7d \x7b 3 \x7d if").2 = .error .expectBlock := rfl

example : finalStack (runProgram 9 "\x7b 1 \x7d \x7b 2 \x7d \x7b 3 \x7d if") = .ok [.Num 2] := rfl

example : (runProgram 9 "puts").2 = .error .stackPopError := rfl

example : (runProgram 9 "foo").2 = .error (.notDefined "foo") := rfl

example : serializeValue (.Block [.Symbol "x"]) = "\x7b x \x7d" := rfl

example : finalStack (runProgram 9 "\x7b /x \x7d") = .ok [.Block [.Symbol "x"]] := rfl

example : finalStack (runProgram 9 "\x7b x \x7d") = .ok [.Block [.Operator "x"]] := rfl




/-! ## Basic lemmas about the result combinators -/

theorem bindRes_error (evs : List VmEvent) (e : VmErr) (k : VmState → Res) :
    bindRes (evs, .error e) k = (evs, .error e) := rfl

theorem bindRes_ok (evs : List VmEvent) (s : VmState) (k : VmState → Res) :
    bindRes (evs, .ok s) k = (evs ++ (k s).1, (k s).2) := by
  rcases h : k s with ⟨evs2, r2⟩
  simp [bindRes, h]

theorem prependEvs_eq (es : List VmEvent) (r : Res) :
    prependEvs es r = (es ++ r.1, r.2) := by
  rcases r with ⟨evs, r2⟩
  rfl

theorem bindRes_snd (r : Res) (k : VmState → Res) :
    (bindRes r k).2 = match r.2 with
      | .error e => .error e
      | .ok s => (k s).2 := by
  rcases r with ⟨evs, r2⟩
  cases r2 with
  | error e => rfl
  | ok s => rw [bindRes_ok]

theorem evalV_succ (n : Nat) (code : Value) (s : VmState) :
    evalV (n + 1) code s = evalStep (evalV n) code s := rfl

/-- While a block is open, `eval` only appends the value to the body at
the top of the block-construction stack and emits one snapshot: the
stack, the scopes and the outer open blocks are untouched, and nothing
is executed. -/
theorem evalV_append (fuel : Nat) (code : Value) (s : VmState)
    (b : List Value) (bs : List (List Value)) (hb : s.blocks = b :: bs) :
    evalV fuel code s
      = ([.state { s with blocks := (b ++ [code]) :: bs }],
         .ok { s with blocks := (b ++ [code]) :: bs }) := by
  cases fuel <;> simp [evalV, evalStep, hb]

/-! ## Claim C2 -/

/-- Claim C2: `def` never overwrites an existing binding in the same
scope: the insertion into the topmost scope is a silent no-op when the
name is already bound there, `/x 10 def x` leaves Number 10 on the
stack, and `/x 10 def /x 20 def x` still leaves Number 10. -/
theorem c2_def_no_overwrite :
    (∀ sc sym v w, lookupScope sc sym = some w → scopeDefInsert sc sym v = sc)
    ∧ finalStack (runProgram 9 "/x 10 def x") = .ok [.Num 10]
    ∧ finalStack (runProgram 9 "/x 10 def /x 20 def x") = .ok [.Num 10] :=
  ⟨fun sc sym v w h => by unfold scopeDefInsert; rw [h], rfl, rfl⟩

/-- Witness for C2 at a concrete scope: re-defining `x`, already bound
to 10, leaves the scope unchanged. -/
theorem c2_def_no_overwrite_witness :
    scopeDefInsert [("x", .Num 10)] "x" (.Num 20) = [("x", .Num 10)] :=
  c2_def_no_overwrite.1 [("x", .Num 10)] "x" (.Num 20) (.Num 10) rfl

/-! ## Claim C3 -/

/-- Claim C3: while the block-construction stack is non-empty, every
value handed to `eval` is appended to the sequence at its top and is
neither executed nor pushed; `{ 1 2 + }` alone ends with exactly the
captured Block on the operand stack, and no snapshot during the run ever
shows the Number 3 on the operand stack. -/
theorem c3_block_capture :
    (∀ fuel code s b bs, s.blocks = b :: bs →
        evalV fuel code s
          = ([.state { s with blocks := (b ++ [code]) :: bs }],
             .ok { s with blocks := (b ++ [code]) :: bs }))
    ∧ finalStack (runProgram 9 "\x7b 1 2 + \x7d")
        = .ok [.Block [.Num 1, .Num 2, .Operator "+"]]
    ∧ ((runProgram 9 "\x7b 1 2 + \x7d").1.any (evHasNum 3)) = false :=
  ⟨evalV_append, rfl, rfl⟩

/-- Witness for C3 with one open block: evaluating `1` appends it to the
open body, with no push onto the operand stack. -/
theorem c3_block_capture_witness :
    evalV 0 (.Num 1) ⟨[], [baseScope], [[]]⟩
      = ([.state ⟨[], [baseScope], [[.Num 1]]⟩], .ok ⟨[], [baseScope], [[.Num 1]]⟩) :=
  c3_block_capture.1 0 (.Num 1) ⟨[], [baseScope], [[]]⟩ [] [] rfl

/-! ## Claim C4 -/

/-- Counterexample to claim C4 as stated: in `1 { 2 } { 3 } if` the
condition argument popped third is Number 1, not a Block, so the run
aborts with the expect-block type error instead of succeeding with
Number 2 on top. -/
theorem c4_if_counterexample :
    finalStack (runProgram 9 "1 \x7b 2 \x7d \x7b 3 \x7d if") = .error .expectBlock := rfl

/-- Claim C4 as amended: `if` requires the condition to be a Block, so
`{ 1 } { 2 } { 3 } if` ends with Number 2 on top and
`{ 0 } { 2 } { 3 } if` ends with Number 3 on top, while
`1 { 2 } { 3 } if` aborts with the expect-block type error. -/
theorem c4_if_amended :
    finalStack (runProgram 9 "\x7b 1 \x7d \x7b 2 \x7d \x7b 3 \x7d if") = .ok [.Num 2]
    ∧ finalStack (runProgram 9 "\x7b 0 \x7d \x7b 2 \x7d \x7b 3 \x7d if") = .ok [.Num 3]
    ∧ (runProgram 9 "1 \x7b 2 \x7d \x7b 3 \x7d if").2 = .error .expectBlock :=
  ⟨rfl, rfl, rfl⟩

/-! ## Claim C7 -/

/-- An aborted prefix determines the whole run: once some tokens end in
an error, appending further tokens changes neither the events nor the
error — nothing after the error is executed or observed. -/
theorem parseTokens_error_append (fuel : Nat) :
    ∀ (ts more : List String) (s : VmState) (evs : List VmEvent) (e : VmErr),
      parseTokens fuel ts s = (evs, .error e) →
      parseTokens fuel (ts ++ more) s = (evs, .error e) := by
  intro ts
  induction ts with
  | nil =>
    intro more s evs e h
    exact absurd h (by simp [parseTokens])
  | cons w ws ih =>
    intro more s evs e h
    have hh : bindRes (parseWord fuel w s) (parseTokens fuel ws) = (evs, .error e) := h
    show bindRes (parseWord fuel w s) (parseTokens fuel (ws ++ more)) = (evs, .error e)
    rcases hw : parseWord fuel w s with ⟨evs1, r1⟩
    rw [hw] at hh
    cases r1 with
    | error e1 =>
      rw [bindRes_error] at hh ⊢
      exact hh
    | ok s1 =>
      rw [bindRes_ok] at hh ⊢
      rcases hp : parseTokens fuel ws s1 with ⟨evs2, r2⟩
      rw [hp] at hh
      cases r2 with
      | error e2 =>
        have h2 : (Except.error e2 : Except VmErr VmState) = .error e := congrArg Prod.snd hh
        cases h2
        rw [ih more s1 evs2 e hp]
        exact hh
      | ok s2 =>
        exact absurd (congrArg Prod.snd hh) (by simp)

/-- Claim C7: every error is fatal — once a token sequence errors, any
longer program produces exactly the same events and the same error, and
nothing more.  Concretely, `puts` on an empty stack fails with the
stack-pop underflow error, the unbound operator `foo` fails with the
undefined-operation error naming `foo`, and `1 2 if` fails with the
expect-block type error. -/
theorem c7_errors_fatal :
    (∀ (fuel : Nat) (ts more : List String) (s : VmState) (evs : List VmEvent) (e : VmErr),
        parseTokens fuel ts s = (evs, .error e) →
        parseTokens fuel (ts ++ more) s = (evs, .error e))
    ∧ (runProgram 9 "puts").2 = .error .stackPopError
    ∧ (runProgram 9 "foo").2 = .error (.notDefined "foo")
    ∧ (runProgram 9 "1 2 if").2 = .error .expectBlock :=
  ⟨parseTokens_error_append, rfl, rfl, rfl⟩

/-- Witness for C7: the unbound operator `foo` aborts the run with no
events from `parse`, and the tokens after it are never executed. -/
theorem c7_errors_fatal_witness :
    parseTokens 9 (["foo"] ++ ["1", "1", "+"]) initState = ([], .error (.notDefined "foo")) :=
  c7_errors_fatal.1 9 ["foo"] ["1", "1", "+"] initState [] (.notDefined "foo") rfl

/-! ## Claim C5 -/

/-- Claim C5: on a state with no open block and at least two stacked
values, `exch` pops the top (`last`), pops the next (`second`), emitting
a pop event for each, evaluates `second` via `eval`, then pushes `last`
and finally pushes `second`'s original value, each with a snapshot —
so afterwards the former second-from-top value sits on top and the
former top value directly beneath it. -/
theorem c5_exch_swap_with_eval :
    ∀ (n : Nat) (s : VmState) (last second : Value) (rest : List Value)
      (evs2 : List VmEvent) (s2 : VmState),
      s.blocks = [] →
      s.stack = last :: second :: rest →
      evalV n second { s with stack := rest } = (evs2, .ok s2) →
      runNative (evalV n) .opExch s
        = ([.stackPop { s with stack := second :: rest } last,
            .stackPop { s with stack := rest } second] ++ evs2
             ++ [.state { s2 with stack := last :: s2.stack },
                 .state { s2 with stack := second :: last :: s2.stack }],
           .ok { s2 with stack := second :: last :: s2.stack }) := by
  intro n s last second rest evs2 s2 _hb hs hev
  simp only [runNative, hs, prependEvs_eq, hev, bindRes_ok]
  simp

/-- Witness for C5 on the stack `2, 1` (top first): `exch` ends with
`1` on top and `2` directly beneath, above the re-pushed copy of `1`. -/
theorem c5_exch_swap_with_eval_witness :
    runNative (evalV 0) .opExch ⟨[.Num 2, .Num 1], [baseScope], []⟩
      = ([.stackPop ⟨[.Num 1], [baseScope], []⟩ (.Num 2),
          .stackPop ⟨[], [baseScope], []⟩ (.Num 1),
          .state ⟨[.Num 1], [baseScope], []⟩,
          .state ⟨[.Num 2, .Num 1], [baseScope], []⟩,
          .state ⟨[.Num 1, .Num 2, .Num 1], [baseScope], []⟩],
         .ok ⟨[.Num 1, .Num 2, .Num 1], [baseScope], []⟩) :=
  c5_exch_swap_with_eval 0 ⟨[.Num 2, .Num 1], [baseScope], []⟩ (.Num 2) (.Num 1) []
    [.state ⟨[.Num 1], [baseScope], []⟩] ⟨[.Num 1], [baseScope], []⟩ rfl rfl rfl

/-! ## Claim C10 -/

/-- Claim C10: token classification delegates to `parseFloat`, which
accepts a numeric prefix: every token other than the empty word and the
braces whose leading characters parse as a decimal float is evaluated as
that Number even with trailing junk (`3abc` is Number 3, `1/2` is
Number 1), and only tokens on which `parseFloat` yields NaN are
classified as Symbol (leading `/`) or Operator. -/
theorem c10_parsefloat_prefix :
    (∀ (fuel : Nat) (w : String) (q : JNum) (s : VmState),
        w ≠ "" → w ≠ "\x7b" → w ≠ "\x7d" → jsParseFloat w = some q →
        parseWord fuel w s = evalV fuel (.Num q) s)
    ∧ jsParseFloat "3abc" = some ⟨3, 1⟩
    ∧ jsParseFloat "1/2" = some ⟨1, 1⟩
    ∧ finalStack (runProgram 9 "3abc") = .ok [.Num 3]
    ∧ finalStack (runProgram 9 "1/2") = .ok [.Num 1]
    ∧ (∀ (fuel : Nat) (w : String) (s : VmState) (r : List Char),
        w ≠ "" → w ≠ "\x7b" → w ≠ "\x7d" → jsParseFloat w = none →
        w.data = '/' :: r →
        parseWord fuel w s = evalV fuel (.Symbol (String.mk r)) s)
    ∧ (∀ (fuel : Nat) (w : String) (s : VmState),
        w ≠ "" → w ≠ "\x7b" → w ≠ "\x7d" → jsParseFloat w = none →
        (∀ r, w.data ≠ '/' :: r) →
        parseWord fuel w s = evalV fuel (.Operator w) s) := by
  refine ⟨?_, rfl, rfl, rfl, rfl, ?_, ?_⟩
  · intro fuel w q s h1 h2 h3 hf
    simp [parseWord, h1, h2, h3, hf]
  · intro fuel w s r h1 h2 h3 hf hr
    simp [parseWord, h1, h2, h3, hf, hr]
  · intro fuel w s h1 h2 h3 hf hr
    simp only [parseWord, if_neg h1, if_neg h2, if_neg h3, hf]

/-- Witness for C10: the token `3abc` is classified as the Number 3 and
pushed onto the stack. -/
theorem c10_parsefloat_prefix_witness :
    parseWord 9 "3abc" initState = evalV 9 (.Num ⟨3, 1⟩) initState :=
  c10_parsefloat_prefix.1 9 "3abc" ⟨3, 1⟩ initState
    (by decide) (by decide) (by decide) rfl

/-! ## Scope-chain frame lemmas -/

theorem scopeLe_refl (sc : Scope) : scopeLe sc sc := fun _ _ h => h

theorem scopeLe_trans {a b c : Scope} (h1 : scopeLe a b) (h2 : scopeLe b c) :
    scopeLe a c := fun k v h => h2 k v (h1 k v h)

theorem lookupScope_append_some {sc : Scope} {k : String} {v : Value}
    (rest : Scope) (h : lookupScope sc k = some v) :
    lookupScope (sc ++ rest) k = some v := by
  induction sc with
  | nil => simp [lookupScope] at h
  | cons p t ih =>
    rcases p with ⟨pk, pv⟩
    simp only [lookupScope, List.cons_append] at h ⊢
    by_cases hk : pk = k
    · simpa [hk] using h
    · rw [if_neg hk] at h ⊢
      exact ih h

theorem scopeLe_defInsert (sc : Scope) (sym : String) (v : Value) :
    scopeLe sc (scopeDefInsert sc sym v) := by
  intro k w h
  unfold scopeDefInsert
  cases hl : lookupScope sc sym
  · exact lookupScope_append_some _ h
  · exact h

theorem evOk_mono {a b : Scope} {rest : List Scope} (hab : scopeLe a b) :
    ∀ e, evOk b rest e → evOk a rest e := by
  intro e he
  cases e with
  | puts v => trivial
  | state st =>
    obtain ⟨ext, sc', hv, hle⟩ := he
    exact ⟨ext, sc', hv, scopeLe_trans hab hle⟩
  | stackPop st v =>
    obtain ⟨ext, sc', hv, hle⟩ := he
    exact ⟨ext, sc', hv, scopeLe_trans hab hle⟩

theorem evOk_pop {sc : Scope} {rest : List Scope} {stk : List Value} {v : Value} :
    evOk sc rest (.stackPop ⟨stk, sc :: rest, []⟩ v) :=
  ⟨[], sc, rfl, scopeLe_refl sc⟩

theorem evOk_st {sc : Scope} {rest : List Scope} {stk : List Value} :
    evOk sc rest (.state ⟨stk, sc :: rest, []⟩) :=
  ⟨[], sc, rfl, scopeLe_refl sc⟩

/-- `evalSeq` respects the scope-chain frame whenever the evaluator
does. -/
theorem evalSeq_ok {ev : Value → VmState → Res} (hev : EvalOK ev) :
    ∀ (vs : List Value) (stk : List Value) (sc : Scope) (rest : List Scope)
      (evs : List VmEvent) (r : Except VmErr VmState),
      evalSeq ev vs ⟨stk, sc :: rest, []⟩ = (evs, r) →
      (∀ e ∈ evs, evOk sc rest e) ∧
      ∀ s', r = .ok s' → ∃ sc' stk', s' = ⟨stk', sc' :: rest, []⟩ ∧ scopeLe sc sc' := by
  intro vs
  induction vs with
  | nil =>
    intro stk sc rest evs r h
    simp only [evalSeq] at h
    cases h
    refine ⟨by simp, ?_⟩
    intro s' h'
    cases h'
    exact ⟨sc, stk, rfl, scopeLe_refl sc⟩
  | cons v vs ih =>
    intro stk sc rest evs r h
    simp only [evalSeq] at h
    rcases hv : ev v ⟨stk, sc :: rest, []⟩ with ⟨evs1, r1⟩
    rw [hv] at h
    obtain ⟨hev1, hok1⟩ := hev v stk sc rest evs1 r1 hv
    cases r1 with
    | error e1 =>
      rw [bindRes_error] at h
      cases h
      exact ⟨hev1, fun s' h' => Except.noConfusion h'⟩
    | ok s1 =>
      obtain ⟨sc1, stk1, hs1, hle1⟩ := hok1 s1 rfl
      subst hs1
      rw [bindRes_ok] at h
      rcases hrec : evalSeq ev vs ⟨stk1, sc1 :: rest, []⟩ with ⟨evs2, r2⟩
      rw [hrec] at h
      cases h
      obtain ⟨hev2, hok2⟩ := ih stk1 sc1 rest evs2 r2 hrec
      constructor
      · intro e he
        rcases List.mem_append.mp he with h1 | h2
        · exact hev1 e h1
        · exact evOk_mono hle1 e (hev2 e h2)
      · intro s' h'
        obtain ⟨sc2, stk2, hs2, hle2⟩ := hok2 s' h'
        exact ⟨sc2, stk2, hs2, scopeLe_trans hle1 hle2⟩

/-- The shared arithmetic body respects the scope-chain frame and never
touches the scopes. -/
theorem arithBin_ok (name : String) (f : JNum → JNum → JNum) :
    ∀ (stk : List Value) (sc : Scope) (rest : List Scope)
      (evs : List VmEvent) (r : Except VmErr VmState),
      arithBin name f ⟨stk, sc :: rest, []⟩ = (evs, r) →
      (∀ e ∈ evs, evOk sc rest e) ∧
      ∀ s', r = .ok s' → ∃ sc' stk', s' = ⟨stk', sc' :: rest, []⟩ ∧ scopeLe sc sc' := by
  intro stk sc rest evs r h
  rcases stk with _ | ⟨rv, stk1⟩
  · simp only [arithBin] at h
    cases h
    exact ⟨by simp, fun s' h' => Except.noConfusion h'⟩
  · rcases stk1 with _ | ⟨lv, stk2⟩
    · simp only [arithBin] at h
      cases h
      refine ⟨?_, fun s' h' => Except.noConfusion h'⟩
      intro e he
      fin_cases he
      exact evOk_pop
    · cases rv <;> cases lv <;>
        · simp only [arithBin] at h
          cases h
          refine ⟨?_, ?_⟩
          · intro e he
            fin_cases he <;> first
              | exact evOk_pop
              | exact evOk_st
          · intro s' h'
            first
              | exact Except.noConfusion h'
              | (cases h'; exact ⟨sc, _, rfl, scopeLe_refl sc⟩)

/-- Every native operator body respects the scope-chain frame whenever
the evaluator used for its recursive `eval` calls does. -/
theorem runNative_ok {ev : Value → VmState → Res} (hev : EvalOK ev) :
    ∀ (nop : NativeOp) (stk : List Value) (sc : Scope) (rest : List Scope)
      (evs : List VmEvent) (r : Except VmErr VmState),
      runNative ev nop ⟨stk, sc :: rest, []⟩ = (evs, r) →
      (∀ e ∈ evs, evOk sc rest e) ∧
      ∀ s', r = .ok s' → ∃ sc' stk', s' = ⟨stk', sc' :: rest, []⟩ ∧ scopeLe sc sc' := by
  intro nop stk sc rest evs r h
  cases nop with
  | add => exact arithBin_ok _ _ _ _ _ _ _ h
  | sub => exact arithBin_ok _ _ _ _ _ _ _ h
  | mul => exact arithBin_ok _ _ _ _ _ _ _ h
  | div => exact arithBin_ok _ _ _ _ _ _ _ h
  | lt => exact arithBin_ok _ _ _ _ _ _ _ h
  | puts =>
    rcases stk with _ | ⟨v, stk1⟩
    · simp only [runNative] at h
      cases h
      exact ⟨by simp, fun s' h' => Except.noConfusion h'⟩
    · simp only [runNative] at h
      cases h
      refine ⟨?_, ?_⟩
      · intro e he
        fin_cases he
        · exact evOk_pop
        · trivial
      · intro s' h'
        cases h'
        exact ⟨sc, stk1, rfl, scopeLe_refl sc⟩
  | opExch =>
    rcases stk with _ | ⟨lastv, stk1⟩
    · simp only [runNative] at h
      cases h
      exact ⟨by simp, fun s' h' => Except.noConfusion h'⟩
    rcases stk1 with _ | ⟨secondv, stk2⟩
    · simp only [runNative] at h
      cases h
      refine ⟨?_, fun s' h' => Except.noConfusion h'⟩
      intro e he
      fin_cases he
      exact evOk_pop
    rcases hv : ev secondv ⟨stk2, sc :: rest, []⟩ with ⟨evs1, r1⟩
    cases r1 with
    | error e1 =>
      simp only [runNative, hv, bindRes, prependEvs] at h
      cases h
      obtain ⟨hev1, _⟩ := hev secondv stk2 sc rest evs1 (.error e1) hv
      refine ⟨?_, fun s' h' => Except.noConfusion h'⟩
      intro e he
      rcases List.mem_cons.mp he with rfl | he2
      · exact evOk_pop
      rcases List.mem_cons.mp he2 with rfl | he3
      · exact evOk_pop
      · exact hev1 e he3
    | ok s1 =>
      obtain ⟨hev1, hok1⟩ := hev secondv stk2 sc rest evs1 (.ok s1) hv
      obtain ⟨sc1, stk1', hs1, hle1⟩ := hok1 s1 rfl
      subst hs1
      simp only [runNative, hv, bindRes, prependEvs] at h
      cases h
      refine ⟨?_, ?_⟩
      · simp only [List.forall_mem_cons, List.forall_mem_append, List.nil_append]
        exact ⟨⟨evOk_pop, evOk_pop, fun e he => absurd he (List.not_mem_nil e)⟩,
          fun e he => hev1 e he, ⟨[], sc1, rfl, hle1⟩, ⟨[], sc1, rfl, hle1⟩,
          fun e he => absurd he (List.not_mem_nil e)⟩
      · intro s' h'
        cases h'
        exact ⟨sc1, _, rfl, hle1⟩
  | opDef =>
    rcases stk with _ | ⟨value, stk1⟩
    · simp only [runNative] at h
      cases h
      exact ⟨by simp, fun s' h' => Except.noConfusion h'⟩
    rcases hv : ev value ⟨stk1, sc :: rest, []⟩ with ⟨evs1, r1⟩
    cases r1 with
    | error e1 =>
      simp only [runNative, hv, bindRes, prependEvs] at h
      cases h
      obtain ⟨hev1, _⟩ := hev value stk1 sc rest evs1 (.error e1) hv
      refine ⟨?_, fun s' h' => Except.noConfusion h'⟩
      simp only [List.forall_mem_cons, List.forall_mem_append, List.nil_append]
      exact ⟨⟨evOk_pop, fun e he => absurd he (List.not_mem_nil e)⟩, fun e he => hev1 e he⟩
    | ok s2 =>
      obtain ⟨hev1, hok1⟩ := hev value stk1 sc rest evs1 (.ok s2) hv
      obtain ⟨sc1, stk2', hs2, hle1⟩ := hok1 s2 rfl
      subst hs2
      rcases stk2' with _ | ⟨evalResult, stk3⟩
      · simp only [runNative, hv, bindRes, prependEvs] at h
        cases h
        refine ⟨?_, fun s' h' => Except.noConfusion h'⟩
        simp only [List.forall_mem_cons, List.forall_mem_append, List.nil_append]
        exact ⟨⟨evOk_pop, fun e he => absurd he (List.not_mem_nil e)⟩,
          fun e he => hev1 e he, fun e he => absurd he (List.not_mem_nil e)⟩
      rcases stk3 with _ | ⟨symv, stk4⟩
      · simp only [runNative, hv, bindRes, prependEvs] at h
        cases h
        refine ⟨?_, fun s' h' => Except.noConfusion h'⟩
        simp only [List.forall_mem_cons, List.forall_mem_append, List.nil_append]
        exact ⟨⟨evOk_pop, fun e he => absurd he (List.not_mem_nil e)⟩,
          fun e he => hev1 e he, ⟨[], sc1, rfl, hle1⟩,
          fun e he => absurd he (List.not_mem_nil e)⟩
      cases symv with
      | Symbol sym =>
        simp only [runNative, hv, bindRes, prependEvs] at h
        cases h
        refine ⟨?_, ?_⟩
        · simp only [List.forall_mem_cons, List.forall_mem_append, List.nil_append]
          exact ⟨⟨evOk_pop, fun e he => absurd he (List.not_mem_nil e)⟩,
            fun e he => hev1 e he, ⟨[], sc1, rfl, hle1⟩, ⟨[], sc1, rfl, hle1⟩,
            ⟨[], scopeDefInsert sc1 sym evalResult, rfl,
              scopeLe_trans hle1 (scopeLe_defInsert sc1 sym evalResult)⟩,
            fun e he => absurd he (List.not_mem_nil e)⟩
        · intro s' h'
          cases h'
          exact ⟨scopeDefInsert sc1 sym evalResult, _, rfl,
            scopeLe_trans hle1 (scopeLe_defInsert sc1 sym evalResult)⟩
      | Num q =>
        simp only [runNative, hv, bindRes, prependEvs] at h
        cases h
        refine ⟨?_, fun s' h' => Except.noConfusion h'⟩
        simp only [List.forall_mem_cons, List.forall_mem_append, List.nil_append]
        exact ⟨⟨evOk_pop, fun e he => absurd he (List.not_mem_nil e)⟩,
          fun e he => hev1 e he, ⟨[], sc1, rfl, hle1⟩, ⟨[], sc1, rfl, hle1⟩,
          fun e he => absurd he (List.not_mem_nil e)⟩
      | Operator op =>
        simp only [runNative, hv, bindRes, prependEvs] at h
        cases h
        refine ⟨?_, fun s' h' => Except.noConfusion h'⟩
        simp only [List.forall_mem_cons, List.forall_mem_append, List.nil_append]
        exact ⟨⟨evOk_pop, fun e he => absurd he (List.not_mem_nil e)⟩,
          fun e he => hev1 e he, ⟨[], sc1, rfl, hle1⟩, ⟨[], sc1, rfl, hle1⟩,
          fun e he => absurd he (List.not_mem_nil e)⟩
      | Block bv =>
        simp only [runNative, hv, bindRes, prependEvs] at h
        cases h
        refine ⟨?_, fun s' h' => Except.noConfusion h'⟩
        simp only [List.forall_mem_cons, List.forall_mem_append, List.nil_append]
        exact ⟨⟨evOk_pop, fun e he => absurd he (List.not_mem_nil e)⟩,
          fun e he => hev1 e he, ⟨[], sc1, rfl, hle1⟩, ⟨[], sc1, rfl, hle1⟩,
          fun e he => absurd he (List.not_mem_nil e)⟩
      | Native nf =>
        simp only [runNative, hv, bindRes, prependEvs] at h
        cases h
        refine ⟨?_, fun s' h' => Except.noConfusion h'⟩
        simp only [List.forall_mem_cons, List.forall_mem_append, List.nil_append]
        exact ⟨⟨evOk_pop, fun e he => absurd he (List.not_mem_nil e)⟩,
          fun e he => hev1 e he, ⟨[], sc1, rfl, hle1⟩, ⟨[], sc1, rfl, hle1⟩,
          fun e he => absurd he (List.not_mem_nil e)⟩
  | opIf =>
    rcases stk with _ | ⟨fb, stk1⟩
    · simp only [runNative] at h
      cases h
      exact ⟨by simp, fun s' h' => Except.noConfusion h'⟩
    rcases fb with q | op | sym | fbv | nf
    case Num | Operator | Symbol | Native =>
      simp only [runNative] at h
      cases h
      refine ⟨?_, fun s' h' => Except.noConfusion h'⟩
      intro e he
      fin_cases he
      exact evOk_pop
    case Block =>
    rcases stk1 with _ | ⟨tb, stk2⟩
    · simp only [runNative] at h
      cases h
      refine ⟨?_, fun s' h' => Except.noConfusion h'⟩
      intro e he
      fin_cases he
      exact evOk_pop
    rcases tb with q | op | sym | tbv | nf
    case Num | Operator | Symbol | Native =>
      simp only [runNative] at h
      cases h
      refine ⟨?_, fun s' h' => Except.noConfusion h'⟩
      intro e he
      fin_cases he <;> exact evOk_pop
    case Block =>
    rcases stk2 with _ | ⟨cond, stk3⟩
    · simp only [runNative] at h
      cases h
      refine ⟨?_, fun s' h' => Except.noConfusion h'⟩
      intro e he
      fin_cases he <;> exact evOk_pop
    rcases cond with q | op | sym | cbv | nf
    case Num | Operator | Symbol | Native =>
      simp only [runNative] at h
      cases h
      refine ⟨?_, fun s' h' => Except.noConfusion h'⟩
      intro e he
      fin_cases he <;> exact evOk_pop
    case Block =>
    rcases hseq : evalSeq ev cbv ⟨stk3, sc :: rest, []⟩ with ⟨evs1, r1⟩
    obtain ⟨hev1, hok1⟩ := evalSeq_ok hev cbv stk3 sc rest evs1 r1 hseq
    cases r1 with
    | error e1 =>
      simp only [runNative, hseq, bindRes, prependEvs] at h
      cases h
      refine ⟨?_, fun s' h' => Except.noConfusion h'⟩
      simp only [List.forall_mem_cons, List.forall_mem_append, List.nil_append]
      exact ⟨⟨evOk_pop, evOk_pop, evOk_pop, fun e he => absurd he (List.not_mem_nil e)⟩,
        fun e he => hev1 e he⟩
    | ok s4 =>
      obtain ⟨sc4, stk4, hs4, hle4⟩ := hok1 s4 rfl
      subst hs4
      rcases stk4 with _ | ⟨cr, stk5⟩
      · simp only [runNative, hseq, bindRes, prependEvs] at h
        cases h
        refine ⟨?_, fun s' h' => Except.noConfusion h'⟩
        simp only [List.forall_mem_cons, List.forall_mem_append, List.nil_append]
        exact ⟨⟨evOk_pop, evOk_pop, evOk_pop, fun e he => absurd he (List.not_mem_nil e)⟩,
          fun e he => hev1 e he, fun e he => absurd he (List.not_mem_nil e)⟩
      rcases cr with crn | op | sym | crb | nf
      case Operator | Symbol | Block | Native =>
        simp only [runNative, hseq, bindRes, prependEvs] at h
        cases h
        refine ⟨?_, fun s' h' => Except.noConfusion h'⟩
        simp only [List.forall_mem_cons, List.forall_mem_append, List.nil_append]
        exact ⟨⟨evOk_pop, evOk_pop, evOk_pop, fun e he => absurd he (List.not_mem_nil e)⟩,
          fun e he => hev1 e he, ⟨[], sc4, rfl, hle4⟩,
          fun e he => absurd he (List.not_mem_nil e)⟩
      case Num =>
      by_cases hz : crn.n = 0
      · rcases hbr : evalSeq ev fbv ⟨stk5, sc4 :: rest, []⟩ with ⟨evs2, r2⟩
        obtain ⟨hev2, hok2⟩ := evalSeq_ok hev fbv stk5 sc4 rest evs2 r2 hbr
        simp only [runNative, hseq, bindRes, prependEvs, if_pos hz, hz, if_true, hbr] at h
        cases r2 with
        | error e2 =>
          cases h
          refine ⟨?_, fun s' h' => Except.noConfusion h'⟩
          simp only [List.forall_mem_cons, List.forall_mem_append, List.nil_append]
          exact ⟨⟨evOk_pop, evOk_pop, evOk_pop, fun e he => absurd he (List.not_mem_nil e)⟩,
            fun e he => hev1 e he,
            ⟨⟨⟨[], sc4, rfl, hle4⟩, fun e he => absurd he (List.not_mem_nil e)⟩,
              fun e he => evOk_mono hle4 e (hev2 e he)⟩⟩
        | ok s6 =>
          obtain ⟨sc6, stk6, hs6, hle6⟩ := hok2 s6 rfl
          subst hs6
          cases h
          refine ⟨?_, ?_⟩
          · simp only [List.forall_mem_cons, List.forall_mem_append, List.nil_append]
            exact ⟨⟨evOk_pop, evOk_pop, evOk_pop, fun e he => absurd he (List.not_mem_nil e)⟩,
              fun e he => hev1 e he,
              ⟨⟨⟨[], sc4, rfl, hle4⟩, fun e he => absurd he (List.not_mem_nil e)⟩,
                fun e he => evOk_mono hle4 e (hev2 e he)⟩⟩
          · intro s' h'
            cases h'
            exact ⟨sc6, stk6, rfl, scopeLe_trans hle4 hle6⟩
      · rcases hbr : evalSeq ev tbv ⟨stk5, sc4 :: rest, []⟩ with ⟨evs2, r2⟩
        obtain ⟨hev2, hok2⟩ := evalSeq_ok hev tbv stk5 sc4 rest evs2 r2 hbr
        simp only [runNative, hseq, bindRes, prependEvs, if_neg hz, hbr] at h
        cases r2 with
        | error e2 =>
          cases h
          refine ⟨?_, fun s' h' => Except.noConfusion h'⟩
          simp only [List.forall_mem_cons, List.forall_mem_append, List.nil_append]
          exact ⟨⟨evOk_pop, evOk_pop, evOk_pop, fun e he => absurd he (List.not_mem_nil e)⟩,
            fun e he => hev1 e he,
            ⟨⟨⟨[], sc4, rfl, hle4⟩, fun e he => absurd he (List.not_mem_nil e)⟩,
              fun e he => evOk_mono hle4 e (hev2 e he)⟩⟩
        | ok s6 =>
          obtain ⟨sc6, stk6, hs6, hle6⟩ := hok2 s6 rfl
          subst hs6
          cases h
          refine ⟨?_, ?_⟩
          · simp only [List.forall_mem_cons, List.forall_mem_append, List.nil_append]
            exact ⟨⟨evOk_pop, evOk_pop, evOk_pop, fun e he => absurd he (List.not_mem_nil e)⟩,
              fun e he => hev1 e he,
              ⟨⟨⟨[], sc4, rfl, hle4⟩, fun e he => absurd he (List.not_mem_nil e)⟩,
                fun e he => evOk_mono hle4 e (hev2 e he)⟩⟩
          · intro s' h'
            cases h'
            exact ⟨sc6, stk6, rfl, scopeLe_trans hle4 hle6⟩

theorem evOk_shift {inner sc : Scope} {rest : List Scope} :
    ∀ e, evOk inner (sc :: rest) e → evOk sc rest e := by
  intro e he
  cases e with
  | puts v => trivial
  | state st =>
    obtain ⟨ext, sc'', hv, _⟩ := he
    exact ⟨ext ++ [sc''], sc, by rw [hv]; simp, scopeLe_refl sc⟩
  | stackPop st v =>
    obtain ⟨ext, sc'', hv, _⟩ := he
    exact ⟨ext ++ [sc''], sc, by rw [hv]; simp, scopeLe_refl sc⟩

/-- One evaluation layer respects the scope-chain frame if its recursive
evaluator does. -/
theorem evalStep_ok {ev : Value → VmState → Res} (hev : EvalOK ev) :
    EvalOK (evalStep ev) := by
  intro code stk sc rest evs r h
  cases code with
  | Num q =>
    simp only [evalStep] at h
    cases h
    exact ⟨fun e he => by fin_cases he; exact evOk_st,
      fun s' h' => by cases h'; exact ⟨sc, _, rfl, scopeLe_refl sc⟩⟩
  | Symbol sym =>
    simp only [evalStep] at h
    cases h
    exact ⟨fun e he => by fin_cases he; exact evOk_st,
      fun s' h' => by cases h'; exact ⟨sc, _, rfl, scopeLe_refl sc⟩⟩
  | Block bv =>
    simp only [evalStep] at h
    cases h
    exact ⟨fun e he => by fin_cases he; exact evOk_st,
      fun s' h' => by cases h'; exact ⟨sc, _, rfl, scopeLe_refl sc⟩⟩
  | Native nf =>
    simp only [evalStep] at h
    cases h
    exact ⟨fun e he => by fin_cases he; exact evOk_st,
      fun s' h' => by cases h'; exact ⟨sc, _, rfl, scopeLe_refl sc⟩⟩
  | Operator op =>
    rcases hf : findVar (sc :: rest) op with _ | v
    · simp only [evalStep, hf] at h
      cases h
      exact ⟨by simp, fun s' h' => Except.noConfusion h'⟩
    cases v with
    | Block bv =>
      rcases hseq : evalSeq ev bv ⟨stk, [] :: sc :: rest, []⟩ with ⟨evs1, r1⟩
      obtain ⟨hev1, hok1⟩ := evalSeq_ok hev bv stk [] (sc :: rest) evs1 r1 hseq
      cases r1 with
      | error e1 =>
        simp only [evalStep, hf, hseq] at h
        cases h
        refine ⟨?_, fun s' h' => Except.noConfusion h'⟩
        intro e he
        rcases List.mem_cons.mp he with rfl | he2
        · exact ⟨[[]], sc, rfl, scopeLe_refl sc⟩
        · exact evOk_shift e (hev1 e he2)
      | ok s2 =>
        obtain ⟨sc2, stk2, hs2, _⟩ := hok1 s2 rfl
        subst hs2
        simp only [evalStep, hf, hseq] at h
        cases h
        refine ⟨?_, ?_⟩
        · intro e he
          rcases List.mem_cons.mp he with rfl | he2
          · exact ⟨[[]], sc, rfl, scopeLe_refl sc⟩
          rcases List.mem_append.mp he2 with h3 | h4
          · exact evOk_shift e (hev1 e h3)
          · rcases List.mem_cons.mp h4 with rfl | h5
            · exact ⟨[], sc, rfl, scopeLe_refl sc⟩
            · exact absurd h5 (List.not_mem_nil e)
        · intro s' h'
          cases h'
          exact ⟨sc, stk2, rfl, scopeLe_refl sc⟩
    | Native nop =>
      have hn : runNative ev nop ⟨stk, sc :: rest, []⟩ = (evs, r) := by
        rw [← h]
        simp only [evalStep, hf]
      exact runNative_ok hev nop stk sc rest evs r hn
    | Num q =>
      simp only [evalStep, hf] at h
      cases h
      exact ⟨fun e he => by fin_cases he; exact evOk_st,
        fun s' h' => by cases h'; exact ⟨sc, _, rfl, scopeLe_refl sc⟩⟩
    | Symbol sym =>
      simp only [evalStep, hf] at h
      cases h
      exact ⟨fun e he => by fin_cases he; exact evOk_st,
        fun s' h' => by cases h'; exact ⟨sc, _, rfl, scopeLe_refl sc⟩⟩
    | Operator op2 =>
      simp only [evalStep, hf] at h
      cases h
      exact ⟨fun e he => by fin_cases he; exact evOk_st,
        fun s' h' => by cases h'; exact ⟨sc, _, rfl, scopeLe_refl sc⟩⟩

/-- The fueled evaluator respects the scope-chain frame at every fuel. -/
theorem evalV_ok : ∀ fuel, EvalOK (evalV fuel) := by
  intro fuel
  induction fuel with
  | zero =>
    have hbot : EvalOK (fun _ _ => (([], .error .outOfFuel) : Res)) := by
      intro code stk sc rest evs r h
      cases h
      exact ⟨by simp, fun s' h' => Except.noConfusion h'⟩
    exact evalStep_ok hbot
  | succ n ih => exact evalStep_ok ih

/-! ## Claim C6 -/

/-- Claim C6: invoking an Operator bound to a Block pushes one fresh
empty scope, evaluates the Block's captured values in order, then pops
exactly that scope; afterwards the scope chain equals its pre-invocation
value, and a name unbound before the invocation — in particular one
bound by `def` only inside the invocation-local scope — still fails the
Operator lookup afterwards with the undefined-operation error. -/
theorem c6_scope_teardown :
    ∀ (n : Nat) (op : String) (stk : List Value) (sc : Scope) (rest : List Scope)
      (bv : List Value) (evsB : List VmEvent) (s1 : VmState),
      findVar (sc :: rest) op = some (.Block bv) →
      evalSeq (evalV n) bv ⟨stk, [] :: sc :: rest, []⟩ = (evsB, .ok s1) →
      evalV (n + 1) (.Operator op) ⟨stk, sc :: rest, []⟩
        = (VmEvent.state ⟨stk, [] :: sc :: rest, []⟩ :: evsB
             ++ [.state { s1 with vars := s1.vars.tail }],
           .ok { s1 with vars := s1.vars.tail })
      ∧ ({ s1 with vars := s1.vars.tail }).vars = sc :: rest
      ∧ (∀ (nm : String) (m : Nat), findVar (sc :: rest) nm = none →
          evalV m (.Operator nm) { s1 with vars := s1.vars.tail }
            = ([], .error (.notDefined nm))) := by
  intro n op stk sc rest bv evsB s1 hf hseq
  obtain ⟨_, hok⟩ := evalSeq_ok (evalV_ok n) bv stk [] (sc :: rest) evsB (.ok s1) hseq
  obtain ⟨scf, stkf, hs1, _⟩ := hok s1 rfl
  subst hs1
  refine ⟨?_, rfl, ?_⟩
  · show evalStep (evalV n) (.Operator op) ⟨stk, sc :: rest, []⟩ = _
    simp only [evalStep, hf, hseq]
  · intro nm m hnone
    cases m with
    | zero =>
      show evalStep _ (.Operator nm) _ = _
      simp only [evalStep, List.tail_cons, hnone]
    | succ m' =>
      show evalStep (evalV m') (.Operator nm) _ = _
      simp only [evalStep, List.tail_cons, hnone]

/-- Witness for C6: invoking `f`, bound to the block `/a 10 def`, binds
`a` only in the invocation-local scope, and looking `a` up afterwards
fails with the undefined-operation error. -/
theorem c6_scope_teardown_witness :
    evalV 5 (.Operator "a")
        ⟨[], [[("f", .Block [.Symbol "a", .Num 10, .Operator "def"])], baseScope], []⟩
      = ([], .error (.notDefined "a")) :=
  (c6_scope_teardown 1 "f" [] [("f", .Block [.Symbol "a", .Num 10, .Operator "def"])]
      [baseScope] [.Symbol "a", .Num 10, .Operator "def"] _ _ rfl rfl).2.2 "a" 5 rfl

/-! ## Claim C8 -/

theorem hasNatives_mono {a b : Scope} (hle : scopeLe a b) (h : hasNatives a) :
    hasNatives b := by
  obtain ⟨h1, h2, h3, h4, h5, h6, h7, h8, h9⟩ := h
  exact ⟨hle _ _ h1, hle _ _ h2, hle _ _ h3, hle _ _ h4, hle _ _ h5,
    hle _ _ h6, hle _ _ h7, hle _ _ h8, hle _ _ h9⟩

theorem baseOk_shift {sc : Scope} {rest : List Scope} (h : baseOk (sc :: rest))
    {sc' : Scope} (hle : scopeLe sc sc') (ext : List Scope) :
    baseOk (ext ++ sc' :: rest) := by
  obtain ⟨_, b, hlast, hb⟩ := h
  refine ⟨by simp, ?_⟩
  cases rest with
  | nil =>
    have hsc : sc = b := by
      rw [List.getLast?_singleton] at hlast
      exact Option.some.inj hlast
    subst hsc
    exact ⟨sc', by rw [List.getLast?_append_cons, List.getLast?_singleton],
      hasNatives_mono hle hb⟩
  | cons r rs =>
    refine ⟨b, ?_, hb⟩
    rw [List.getLast?_append_cons, List.getLast?_cons_cons]
    rw [List.getLast?_cons_cons] at hlast
    exact hlast

theorem evOk_baseOk {sc : Scope} {rest : List Scope} (h : baseOk (sc :: rest)) :
    ∀ e, evOk sc rest e → evBaseOk e := by
  intro e he
  cases e with
  | puts v => trivial
  | state st =>
    obtain ⟨ext, sc', hv, hle⟩ := he
    show baseOk st.vars
    rw [hv]
    exact baseOk_shift h hle ext
  | stackPop st v =>
    obtain ⟨ext, sc', hv, hle⟩ := he
    show baseOk st.vars
    rw [hv]
    exact baseOk_shift h hle ext

/-- `eval` preserves the healthy-base invariant, whatever the open-block
state is. -/
theorem evalV_baseOk :
    ∀ (fuel : Nat) (code : Value) (s : VmState) (evs : List VmEvent)
      (r : Except VmErr VmState),
      evalV fuel code s = (evs, r) → baseOk s.vars →
      (∀ e ∈ evs, evBaseOk e) ∧ ∀ s', r = .ok s' → baseOk s'.vars := by
  intro fuel code s evs r h hbase
  rcases s with ⟨stk, vars, blocks⟩
  rcases blocks with _ | ⟨b, bs⟩
  · rcases hvars : vars with _ | ⟨sc, rest⟩
    · exact absurd hvars hbase.1
    subst hvars
    obtain ⟨hev, hok⟩ := evalV_ok fuel code stk sc rest evs r h
    refine ⟨fun e he => evOk_baseOk hbase e (hev e he), ?_⟩
    intro s' h'
    obtain ⟨sc', stk', hs', hle⟩ := hok s' h'
    rw [hs']
    exact baseOk_shift hbase hle []
  · rw [evalV_append fuel code ⟨stk, vars, b :: bs⟩ b bs rfl] at h
    cases h
    refine ⟨?_, ?_⟩
    · intro e he
      fin_cases he
      exact hbase
    · intro s' h'
      cases h'
      exact hbase

/-- `parse` preserves the healthy-base invariant for every token. -/
theorem parseWord_baseOk :
    ∀ (fuel : Nat) (w : String) (s : VmState) (evs : List VmEvent)
      (r : Except VmErr VmState),
      parseWord fuel w s = (evs, r) → baseOk s.vars →
      (∀ e ∈ evs, evBaseOk e) ∧ ∀ s', r = .ok s' → baseOk s'.vars := by
  intro fuel w s evs r h hbase
  by_cases h0 : w = ""
  · subst h0
    cases h
    exact ⟨fun e he => by fin_cases he; exact hbase,
      fun s' h' => by cases h'; exact hbase⟩
  by_cases h1 : w = "\x7b"
  · subst h1
    cases h
    exact ⟨fun e he => by fin_cases he; exact hbase,
      fun s' h' => by cases h'; exact hbase⟩
  by_cases h2 : w = "\x7d"
  · subst h2
    rcases s with ⟨stk, vars, blocks⟩
    rcases blocks with _ | ⟨b, brest⟩
    · cases h
      exact ⟨fun e he => by fin_cases he; exact hbase,
        fun s' h' => Except.noConfusion h'⟩
    · rcases hev' : evalV fuel (.Block b) ⟨stk, vars, brest⟩ with ⟨evs1, r1⟩
      have h' : prependEvs [.state ⟨stk, vars, brest⟩]
          (evalV fuel (.Block b) ⟨stk, vars, brest⟩) = (evs, r) := h
      rw [hev', prependEvs_eq] at h'
      cases h'
      obtain ⟨hevs, hok⟩ := evalV_baseOk fuel (.Block b) ⟨stk, vars, brest⟩ evs1 r1 hev' hbase
      refine ⟨?_, hok⟩
      intro e he
      rcases List.mem_append.mp he with h3 | h4
      · obtain rfl := List.mem_singleton.mp h3
        exact hbase
      · exact hevs e h4
  · simp only [parseWord, if_neg h0, if_neg h1, if_neg h2] at h
    split at h
    · exact evalV_baseOk _ _ _ _ _ h hbase
    · split at h
      · exact evalV_baseOk _ _ _ _ _ h hbase
      · exact evalV_baseOk _ _ _ _ _ h hbase

theorem parseTokens_baseOk :
    ∀ (fuel : Nat) (toks : List String) (s : VmState) (evs : List VmEvent)
      (r : Except VmErr VmState),
      parseTokens fuel toks s = (evs, r) → baseOk s.vars →
      (∀ e ∈ evs, evBaseOk e) ∧ ∀ s', r = .ok s' → baseOk s'.vars := by
  intro fuel toks
  induction toks with
  | nil =>
    intro s evs r h hbase
    simp only [parseTokens] at h
    cases h
    exact ⟨by simp, fun s' h' => by cases h'; exact hbase⟩
  | cons w ws ih =>
    intro s evs r h hbase
    simp only [parseTokens] at h
    rcases hw : parseWord fuel w s with ⟨evs1, r1⟩
    rw [hw] at h
    obtain ⟨hev1, hok1⟩ := parseWord_baseOk fuel w s evs1 r1 hw hbase
    cases r1 with
    | error e1 =>
      rw [bindRes_error] at h
      cases h
      exact ⟨hev1, fun s' h' => Except.noConfusion h'⟩
    | ok s1 =>
      rw [bindRes_ok] at h
      rcases hp : parseTokens fuel ws s1 with ⟨evs2, r2⟩
      rw [hp] at h
      cases h
      obtain ⟨hev2, hok2⟩ := ih s1 evs2 r2 hp (hok1 s1 rfl)
      refine ⟨?_, hok2⟩
      intro e he
      rcases List.mem_append.mp he with h3 | h4
      · exact hev1 e h3
      · exact hev2 e h4

/-- Claim C8: for every program and at every emitted event, the scope
chain is nonempty and the base scope (index 0) still carries all nine
native operator bindings; the same holds of the final state of a normal
run. -/
theorem c8_base_scope_invariant :
    ∀ (fuel : Nat) (toks : List String) (evs : List VmEvent)
      (r : Except VmErr VmState),
      runTokens fuel toks initState = (evs, r) →
      (∀ e ∈ evs, evBaseOk e) ∧ ∀ s', r = .ok s' → baseOk s'.vars := by
  intro fuel toks evs r h
  have hbase : baseOk initState.vars :=
    ⟨List.cons_ne_nil _ _, baseScope, rfl,
      ⟨rfl, rfl, rfl, rfl, rfl, rfl, rfl, rfl, rfl⟩⟩
  rcases hp : parseTokens fuel toks initState with ⟨evs1, r1⟩
  rw [runTokens, hp, prependEvs_eq] at h
  cases h
  obtain ⟨hev1, hok1⟩ := parseTokens_baseOk fuel toks initState evs1 r1 hp hbase
  refine ⟨?_, hok1⟩
  intro e he
  rcases List.mem_cons.mp he with rfl | he2
  · exact hbase
  · exact hev1 e he2

/-- Witness for C8 on the run of `/x 10 def x`: the final scope chain
is the base scope extended with the binding of `x`, still nonempty and
still carrying the natives. -/
theorem c8_base_scope_invariant_witness :
    baseOk [baseScope ++ [("x", Value.Num ⟨10, 1⟩)]] :=
  (c8_base_scope_invariant 9 ["/x", "10", "def", "x"]
      (runTokens 9 ["/x", "10", "def", "x"] initState).1
      (runTokens 9 ["/x", "10", "def", "x"] initState).2 rfl).2
    ⟨[Value.Num ⟨10, 1⟩], [baseScope ++ [("x", Value.Num ⟨10, 1⟩)]], []⟩ (by rfl)

/-! ## Claim C1 -/

/-- One token of the RPN fragment advances the machine exactly as one
step of RPN evaluation advances the number stack. -/
theorem arith_word_step :
    ∀ (n : Nat) (w : String) (t : ArithTok) (qs qs' : List JNum),
      classifyArith w = some t → rpnStep t qs = some qs' →
      (parseWord (n + 1) w ⟨qs.map Value.Num, [baseScope], []⟩).2
        = .ok ⟨qs'.map Value.Num, [baseScope], []⟩ := by
  intro n w t qs qs' hc hs
  unfold classifyArith at hc
  by_cases h0 : w = "" ∨ w = "\x7b" ∨ w = "\x7d"
  · rw [if_pos h0] at hc
    exact Option.noConfusion hc
  rw [if_neg h0] at hc
  push_neg at h0
  obtain ⟨h1, h2, h3⟩ := h0
  cases hf : jsParseFloat w with
  | some q =>
    rw [hf] at hc
    obtain rfl := Option.some.inj hc
    simp only [rpnStep] at hs
    obtain rfl := Option.some.inj hs
    simp only [parseWord, if_neg h1, if_neg h2, if_neg h3, hf]
    rfl
  | none =>
    rw [hf] at hc
    by_cases hw : w = "+"
    · subst hw
      rw [if_pos rfl] at hc
      obtain rfl := Option.some.inj hc
      rcases qs with _ | ⟨rv, qs1⟩
      · exact Option.noConfusion hs
      rcases qs1 with _ | ⟨lv, qs2⟩
      · exact Option.noConfusion hs
      simp only [rpnStep] at hs
      obtain rfl := Option.some.inj hs
      rfl
    rw [if_neg hw] at hc
    by_cases hw2 : w = "-"
    · subst hw2
      rw [if_pos rfl] at hc
      obtain rfl := Option.some.inj hc
      rcases qs with _ | ⟨rv, qs1⟩
      · exact Option.noConfusion hs
      rcases qs1 with _ | ⟨lv, qs2⟩
      · exact Option.noConfusion hs
      simp only [rpnStep] at hs
      obtain rfl := Option.some.inj hs
      rfl
    rw [if_neg hw2] at hc
    by_cases hw3 : w = "*"
    · subst hw3
      rw [if_pos rfl] at hc
      obtain rfl := Option.some.inj hc
      rcases qs with _ | ⟨rv, qs1⟩
      · exact Option.noConfusion hs
      rcases qs1 with _ | ⟨lv, qs2⟩
      · exact Option.noConfusion hs
      simp only [rpnStep] at hs
      obtain rfl := Option.some.inj hs
      rfl
    rw [if_neg hw3] at hc
    exact Option.noConfusion hc

/-- A whole RPN-fragment program advances the machine exactly as RPN
evaluation advances the number stack. -/
theorem arith_run :
    ∀ (toks : List String) (ats : List ArithTok) (qs qs' : List JNum) (n : Nat),
      classifyAriths toks = some ats → rpnEval ats qs = some qs' →
      (parseTokens (n + 1) toks ⟨qs.map Value.Num, [baseScope], []⟩).2
        = .ok ⟨qs'.map Value.Num, [baseScope], []⟩ := by
  intro toks
  induction toks with
  | nil =>
    intro ats qs qs' n hc hr
    simp only [classifyAriths] at hc
    obtain rfl := Option.some.inj hc
    simp only [rpnEval] at hr
    obtain rfl := Option.some.inj hr
    rfl
  | cons w ws ih =>
    intro ats qs qs' n hc hr
    simp only [classifyAriths] at hc
    cases hcw : classifyArith w with
    | none =>
      rw [hcw] at hc
      exact Option.noConfusion hc
    | some t =>
      cases hcs : classifyAriths ws with
      | none =>
        rw [hcw, hcs] at hc
        exact Option.noConfusion hc
      | some ts =>
        rw [hcw, hcs] at hc
        obtain rfl := Option.some.inj hc
        simp only [rpnEval] at hr
        cases hst : rpnStep t qs with
        | none =>
          rw [hst] at hr
          exact Option.noConfusion hr
        | some qs1 =>
          rw [hst] at hr
          have hw := arith_word_step n w t qs qs1 hcw hst
          show (bindRes (parseWord (n + 1) w ⟨qs.map Value.Num, [baseScope], []⟩)
              (parseTokens (n + 1) ws)).2 = _
          rcases hpw : parseWord (n + 1) w ⟨qs.map Value.Num, [baseScope], []⟩ with ⟨evs1, r1⟩
          rw [hpw] at hw
          have hr1 : r1 = .ok ⟨qs1.map Value.Num, [baseScope], []⟩ := hw
          subst hr1
          rw [bindRes_ok]
          show (parseTokens (n + 1) ws ⟨qs1.map Value.Num, [baseScope], []⟩).2 = _
          exact ih ts qs1 qs' n hcs hr

/-- Counterexample to claim C1 as stated: the claim includes `/` among
the arithmetic operator words, but the machine classifies the token `/`
as the Symbol with empty name (it starts with a slash), so `6 2 /`
pushes that Symbol instead of dividing: execution succeeds with the
Symbol on top, not the RPN quotient 3 (the pair `⟨6, 2⟩` here). -/
theorem c1_rpn_counterexample :
    finalStack (runProgram 9 "6 2 /") = .ok [.Symbol "", .Num 2, .Num 6]
    ∧ rpnEval [.anum 6, .anum 2, .adiv] [] = some [⟨6, 2⟩] :=
  ⟨rfl, rfl⟩

/-- Claim C1 as amended: for programs of number literals and the
arithmetic operator words `+ - *` (the token `/` is classified as a
Symbol and never reaches the division native) in which every operator
application finds two Numbers on the stack (the RPN evaluation
succeeds), execution succeeds and the final operand stack mirrors the
RPN result, top first; each binary arithmetic operator pops the right
operand, then the left, and pushes `left OP right`; `3 4 +` leaves 7 on
top and `10 2 -` leaves 8. -/
theorem c1_rpn_amended :
    (∀ (toks : List String) (ats : List ArithTok) (q : JNum) (qs : List JNum) (n : Nat),
        classifyAriths toks = some ats → rpnEval ats [] = some (q :: qs) →
        (runTokens (n + 1) toks initState).2
          = .ok ⟨(q :: qs).map Value.Num, [baseScope], []⟩)
    ∧ (∀ (name : String) (f : JNum → JNum → JNum) (s : VmState) (r l : JNum)
        (rest : List Value),
        s.stack = .Num r :: .Num l :: rest →
        arithBin name f s
          = ([.stackPop { s with stack := .Num l :: rest } (.Num r),
              .stackPop { s with stack := rest } (.Num l),
              .state { s with stack := .Num (f l r) :: rest }],
             .ok { s with stack := .Num (f l r) :: rest }))
    ∧ (∀ (ev : Value → VmState → Res) (s : VmState),
        runNative ev .add s = arithBin "+" JNum.add s
        ∧ runNative ev .sub s = arithBin "-" JNum.sub s
        ∧ runNative ev .mul s = arithBin "*" JNum.mul s
        ∧ runNative ev .div s = arithBin "/" JNum.div s)
    ∧ finalStack (runProgram 9 "3 4 +") = .ok [.Num 7]
    ∧ finalStack (runProgram 9 "10 2 -") = .ok [.Num 8] := by
  refine ⟨?_, ?_, fun ev s => ⟨rfl, rfl, rfl, rfl⟩, rfl, rfl⟩
  · intro toks ats q qs n hc hr
    have harith := arith_run toks ats [] (q :: qs) n hc hr
    show (prependEvs [.state initState] (parseTokens (n + 1) toks initState)).2 = _
    rw [prependEvs_eq]
    exact harith
  · intro name f s r l rest hs
    rcases s with ⟨stk, vars, blocks⟩
    simp only at hs
    subst hs
    rfl

/-- Witness for C1: running `3 4 +` matches the RPN evaluation and ends
with 7 alone on the stack. -/
theorem c1_rpn_amended_witness :
    (runTokens 4 ["3", "4", "+"] initState).2
      = .ok ⟨[Value.Num 7], [baseScope], []⟩ :=
  c1_rpn_amended.1 ["3", "4", "+"] [.anum 3, .anum 4, .aadd] 7 [] 3 rfl rfl

/-! ## Claim C9: digit printing and reparsing -/

theorem digitChar_facts (d : Nat) (hd : d < 10) :
    (Nat.digitChar d).isDigit = true ∧ Nat.digitChar d ≠ ' ' ∧ Nat.digitChar d ≠ '\n'
    ∧ Nat.digitChar d ≠ '/' ∧ Nat.digitChar d ≠ '\x7b' ∧ Nat.digitChar d ≠ '\x7d'
    ∧ Nat.digitChar d ≠ '-' ∧ Nat.digitChar d ≠ '+'
    ∧ (Nat.digitChar d).isWhitespace = false ∧ digitVal (Nat.digitChar d) = d := by
  interval_cases d <;> exact ⟨rfl, by decide, by decide, by decide, by decide, by decide,
    by decide, by decide, rfl, rfl⟩

/-- The digits printed for `n` with fuel above `n`: every character is a
digit unlike any token delimiter, the list is nonempty, and it reads
back as `n`. -/
theorem natChars_spec :
    ∀ (f n : Nat), n < f →
      (∀ c ∈ natChars f n,
        c.isDigit = true ∧ c ≠ ' ' ∧ c ≠ '\n' ∧ c ≠ '/' ∧ c ≠ '\x7b' ∧ c ≠ '\x7d'
        ∧ c ≠ '-' ∧ c ≠ '+' ∧ c.isWhitespace = false)
      ∧ natChars f n ≠ [] ∧ digitsVal (natChars f n) = n := by
  intro f
  induction f with
  | zero => intro n h; omega
  | succ f ih =>
    intro n h
    by_cases h10 : n < 10
    · simp only [natChars, if_pos h10]
      obtain ⟨hd, hf1, hf2, hf3, hf4, hf5, hf6, hf7, hf8, hf9⟩ := digitChar_facts n h10
      refine ⟨?_, by simp, ?_⟩
      · intro c hc
        obtain rfl := List.mem_singleton.mp hc
        exact ⟨hd, hf1, hf2, hf3, hf4, hf5, hf6, hf7, hf8⟩
      · simp only [digitsVal, List.foldl_cons, List.foldl_nil, Nat.zero_mul, Nat.zero_add]
        exact hf9
    · simp only [natChars, if_neg h10]
      have hdiv : n / 10 < f := by omega
      obtain ⟨hd, hne, hv⟩ := ih (n / 10) hdiv
      have hmod : n % 10 < 10 := Nat.mod_lt n (by norm_num)
      obtain ⟨md, mf1, mf2, mf3, mf4, mf5, mf6, mf7, mf8, mf9⟩ := digitChar_facts (n % 10) hmod
      refine ⟨?_, ?_, ?_⟩
      · intro c hc
        rcases List.mem_append.mp hc with h1 | h2
        · exact hd c h1
        · obtain rfl := List.mem_singleton.mp h2
          exact ⟨md, mf1, mf2, mf3, mf4, mf5, mf6, mf7, mf8⟩
      · simp
      · simp only [digitsVal, List.foldl_append, List.foldl_cons, List.foldl_nil]
        have hv' : (natChars f (n / 10)).foldl (fun a c => a * 10 + digitVal c) 0 = n / 10 := hv
        rw [hv', mf9]
        omega

theorem takeDigits_all :
    ∀ (cs : List Char), (∀ c ∈ cs, c.isDigit = true) → takeDigits cs = (cs, []) := by
  intro cs
  induction cs with
  | nil => intro _; rfl
  | cons c cs' ih =>
    intro hd
    simp only [takeDigits, hd c (List.mem_cons_self c cs')]
    rw [ih (fun x hx => hd x (List.mem_cons_of_mem c hx))]
    simp

theorem parseMantissa_digits (cs : List Char) (hne : cs ≠ [])
    (hd : ∀ c ∈ cs, c.isDigit = true) :
    parseMantissa cs = some (⟨(digitsVal cs : Int), 1⟩, []) := by
  unfold parseMantissa
  rw [takeDigits_all cs hd]
  simp [hne]

theorem dropWhile_digits (cs : List Char) (hd : ∀ c ∈ cs, c.isWhitespace = false) :
    cs.dropWhile Char.isWhitespace = cs := by
  cases cs with
  | nil => rfl
  | cons c cs' =>
    rw [List.dropWhile_cons, hd c (List.mem_cons_self c cs')]
    simp

theorem jsParseFloat_digits (cs : List Char) (hne : cs ≠ [])
    (hd : ∀ c ∈ cs,
      c.isDigit = true ∧ c ≠ ' ' ∧ c ≠ '\n' ∧ c ≠ '/' ∧ c ≠ '\x7b' ∧ c ≠ '\x7d'
      ∧ c ≠ '-' ∧ c ≠ '+' ∧ c.isWhitespace = false) :
    jsParseFloat (String.mk cs) = some ⟨(digitsVal cs : Int), 1⟩ := by
  simp only [jsParseFloat]
  rw [dropWhile_digits cs (fun c hc => (hd c hc).2.2.2.2.2.2.2.2)]
  have hman := parseMantissa_digits cs hne (fun c hc => (hd c hc).1)
  split
  · exact absurd rfl ((hd '-' (List.mem_cons_self _ _)).2.2.2.2.2.2.1)
  · exact absurd rfl ((hd '+' (List.mem_cons_self _ _)).2.2.2.2.2.2.2.1)
  · rw [hman]
    rfl

/-- The decimal printing of an integer reparses to exactly that
integral number. -/
theorem jsParseFloat_intChars (z : Int) :
    jsParseFloat (String.mk (intChars z)) = some ⟨z, 1⟩ := by
  obtain ⟨hgood, hne, hval⟩ := natChars_spec (z.natAbs + 1) z.natAbs (by omega)
  have hgood' : ∀ c ∈ natStr z.natAbs,
      c.isDigit = true ∧ c ≠ ' ' ∧ c ≠ '\n' ∧ c ≠ '/' ∧ c ≠ '\x7b' ∧ c ≠ '\x7d'
      ∧ c ≠ '-' ∧ c ≠ '+' ∧ c.isWhitespace = false := hgood
  have hne' : natStr z.natAbs ≠ [] := hne
  have hval' : digitsVal (natStr z.natAbs) = z.natAbs := hval
  unfold intChars
  by_cases hz : z < 0
  · rw [if_pos hz]
    have hman := parseMantissa_digits (natStr z.natAbs) hne'
      (fun c hc => (hgood' c hc).1)
    have hws : ∀ c ∈ '-' :: natStr z.natAbs, c.isWhitespace = false := by
      intro c hc
      rcases List.mem_cons.mp hc with rfl | hc2
      · decide
      · exact (hgood' c hc2).2.2.2.2.2.2.2.2
    simp only [jsParseFloat]
    rw [dropWhile_digits ('-' :: natStr z.natAbs) hws]
    show (parseMantissa (natStr z.natAbs)).map
        (fun p => ({ n := -(applyExp p.1 p.2).n, d := (applyExp p.1 p.2).d } : JNum))
        = some ⟨z, 1⟩
    rw [hman]
    show some ({ n := -((digitsVal (natStr z.natAbs) : Int)), d := 1 } : JNum)
      = some ⟨z, 1⟩
    have hzz : -((digitsVal (natStr z.natAbs) : Int)) = z := by
      rw [hval']
      omega
    rw [hzz]
  · rw [if_neg hz]
    rw [jsParseFloat_digits (natStr z.natAbs) hne' hgood', hval']
    have hzz : ((z.natAbs : Int)) = z := by omega
    rw [hzz]

theorem splitOnChar_ne_nil (c : Char) (cs : List Char) : splitOnChar c cs ≠ [] := by
  induction cs with
  | nil => simp [splitOnChar]
  | cons x xs ih =>
    simp only [splitOnChar]
    by_cases hx : x = c
    · simp [hx]
    · simp only [if_neg hx]
      cases h : splitOnChar c xs with
      | nil => exact absurd h ih
      | cons a b => simp

theorem splitOnChar_append (c : Char) (a b : List Char) :
    splitOnChar c (a ++ c :: b) = splitOnChar c a ++ splitOnChar c b := by
  induction a with
  | nil => simp [splitOnChar]
  | cons x xs ih =>
    simp only [List.cons_append, splitOnChar, ih]
    by_cases hx : x = c
    · simp [hx, ih]
    · simp only [if_neg hx]
      cases h : splitOnChar c xs with
      | nil => exact absurd h (splitOnChar_ne_nil c xs)
      | cons hh tt =>
        simp only [List.append_eq]
        rw [ih, h]
        simp

theorem splitOnChar_no_sep (c : Char) (cs : List Char) (h : ∀ x ∈ cs, x ≠ c) :
    splitOnChar c cs = [cs] := by
  induction cs with
  | nil => rfl
  | cons x xs ih =>
    simp only [splitOnChar, if_neg (h x (List.mem_cons_self x xs))]
    rw [ih (fun y hy => h y (List.mem_cons_of_mem x hy))]

theorem splitOnChar_cons_sep (c : Char) (x : Char) (hx : x ≠ c) (r : List Char) :
    splitOnChar c (x :: c :: r) = [x] :: splitOnChar c r := by
  simp [splitOnChar, hx]

theorem bindRes_assoc (r : Res) (k1 k2 : VmState → Res) :
    bindRes (bindRes r k1) k2 = bindRes r (fun s => bindRes (k1 s) k2) := by
  rcases r with ⟨evs, r2⟩
  cases r2 with
  | error e => rfl
  | ok s =>
    rcases h1 : k1 s with ⟨evs1, r1⟩
    cases r1 with
    | error e1 => simp [bindRes, h1]
    | ok s1 =>
      rcases h2 : k2 s1 with ⟨evs2, r2'⟩
      simp [bindRes, h1, h2, List.append_assoc]

theorem parseTokens_append (fuel : Nat) :
    ∀ (a b : List String) (s : VmState),
      parseTokens fuel (a ++ b) s = bindRes (parseTokens fuel a s) (parseTokens fuel b) := by
  intro a
  induction a with
  | nil =>
    intro b s
    show parseTokens fuel b s = bindRes ([], .ok s) (parseTokens fuel b)
    rw [bindRes_ok]
    rcases h : parseTokens fuel b s with ⟨evs, r⟩
    simp
  | cons w ws ih =>
    intro b s
    show bindRes (parseWord fuel w s) (parseTokens fuel (ws ++ b))
        = bindRes (bindRes (parseWord fuel w s) (parseTokens fuel ws)) (parseTokens fuel b)
    rw [bindRes_assoc]
    congr 1
    funext s1
    exact ih b s1

theorem parseWord_num (fuel : Nat) (w : String) (q : JNum) (s : VmState)
    (h1 : w ≠ "") (h2 : w ≠ "\x7b") (h3 : w ≠ "\x7d")
    (hf : jsParseFloat w = some q) :
    parseWord fuel w s = evalV fuel (.Num q) s := by
  simp [parseWord, h1, h2, h3, hf]

theorem parseWord_operator (fuel : Nat) (w : String) (s : VmState)
    (h1 : w ≠ "") (h2 : w ≠ "\x7b") (h3 : w ≠ "\x7d")
    (hf : jsParseFloat w = none) (hr : ∀ r, w.data ≠ '/' :: r) :
    parseWord fuel w s = evalV fuel (.Operator w) s := by
  simp only [parseWord, if_neg h1, if_neg h2, if_neg h3, hf]

theorem String_mk_ne (cs : List Char) (w : String) (h : cs ≠ w.data) :
    String.mk cs ≠ w :=
  fun hc => h (congrArg String.data hc)

theorem intChars_facts (z : Int) :
    ∀ c ∈ intChars z, c ≠ ' ' ∧ c ≠ '\n' ∧ c ≠ '\x7b' ∧ c ≠ '\x7d' := by
  intro c hc
  obtain ⟨hgood, hne, _⟩ := natChars_spec (z.natAbs + 1) z.natAbs (by omega)
  unfold intChars at hc
  by_cases hz : z < 0
  · rw [if_pos hz] at hc
    rcases List.mem_cons.mp hc with rfl | hc2
    · exact ⟨by decide, by decide, by decide, by decide⟩
    · have hg := hgood c hc2
      exact ⟨hg.2.1, hg.2.2.1, hg.2.2.2.2.1, hg.2.2.2.2.2.1⟩
  · rw [if_neg hz] at hc
    have hg := hgood c hc
    exact ⟨hg.2.1, hg.2.2.1, hg.2.2.2.2.1, hg.2.2.2.2.2.1⟩

theorem intChars_ne_nil (z : Int) : intChars z ≠ [] := by
  obtain ⟨_, hne, _⟩ := natChars_spec (z.natAbs + 1) z.natAbs (by omega)
  unfold intChars
  by_cases hz : z < 0
  · rw [if_pos hz]
    simp
  · rw [if_neg hz]
    exact hne

/-- The zero-padded fraction digits: each character is a digit unlike
any delimiter, there are exactly `k` of them, and they read back as
`m % 10 ^ k`. -/
theorem natCharsPad_spec :
    ∀ (k m : Nat),
      (∀ c ∈ natCharsPad k m,
        c.isDigit = true ∧ c ≠ ' ' ∧ c ≠ '\n' ∧ c ≠ '/' ∧ c ≠ '\x7b' ∧ c ≠ '\x7d'
        ∧ c ≠ '-' ∧ c ≠ '+' ∧ c.isWhitespace = false)
      ∧ (natCharsPad k m).length = k ∧ digitsVal (natCharsPad k m) = m % 10 ^ k := by
  intro k
  induction k with
  | zero =>
    intro m
    refine ⟨fun c hc => absurd hc (List.not_mem_nil c), rfl, ?_⟩
    simp [digitsVal, natCharsPad, Nat.mod_one]
  | succ k ih =>
    intro m
    obtain ⟨hd, hlen, hval⟩ := ih (m / 10)
    have hmod : m % 10 < 10 := Nat.mod_lt m (by norm_num)
    obtain ⟨md, mf1, mf2, mf3, mf4, mf5, mf6, mf7, mf8, mf9⟩ := digitChar_facts (m % 10) hmod
    rw [show natCharsPad (k + 1) m
        = natCharsPad k (m / 10) ++ [Nat.digitChar (m % 10)] from rfl]
    refine ⟨?_, ?_, ?_⟩
    · intro c hc
      rcases List.mem_append.mp hc with h1 | h2
      · exact hd c h1
      · obtain rfl := List.mem_singleton.mp h2
        exact ⟨md, mf1, mf2, mf3, mf4, mf5, mf6, mf7, mf8⟩
    · simp [hlen]
    · simp only [digitsVal, List.foldl_append, List.foldl_cons, List.foldl_nil]
      have hval' : (natCharsPad k (m / 10)).foldl (fun a c => a * 10 + digitVal c) 0
          = m / 10 % 10 ^ k := hval
      rw [hval', mf9]
      have h1 : m % (10 * 10 ^ k) = m % 10 + 10 * (m / 10 % 10 ^ k) := Nat.mod_mul
      have h2 : (10 : Nat) ^ (k + 1) = 10 * 10 ^ k := by ring
      rw [h2, h1]
      omega

/-- `takeDigits` consumes a digit prefix up to the first non-digit. -/
theorem takeDigits_stop :
    ∀ (a : List Char), (∀ c ∈ a, c.isDigit = true) →
      ∀ (c0 : Char) (b : List Char), c0.isDigit = false →
        takeDigits (a ++ c0 :: b) = (a, c0 :: b) := by
  intro a
  induction a with
  | nil =>
    intro _ c0 b hc0
    rw [List.nil_append]
    simp only [takeDigits, hc0]
    simp
  | cons c cs ih =>
    intro hd c0 b hc0
    rw [List.cons_append]
    simp only [takeDigits, hd c (List.mem_cons_self c cs)]
    rw [ih (fun x hx => hd x (List.mem_cons_of_mem c hx)) c0 b hc0]
    simp

/-- A digit string, a point, and another digit string parse as a
mantissa with a power-of-ten denominator and no remainder. -/
theorem parseMantissa_point (a b : List Char) (ha : ∀ c ∈ a, c.isDigit = true)
    (hb : ∀ c ∈ b, c.isDigit = true) (hne : a ≠ []) :
    parseMantissa (a ++ '.' :: b)
      = some (⟨(digitsVal a * 10 ^ b.length + digitsVal b : Nat),
          ((10 : Nat) ^ b.length : Nat)⟩, []) := by
  unfold parseMantissa
  rw [takeDigits_stop a ha '.' b (by decide)]
  show (match takeDigits b with
    | (fp, r3) =>
      if a = [] ∧ fp = [] then none
      else some ((⟨(digitsVal a * 10 ^ fp.length + digitsVal fp : Nat),
          ((10 : Nat) ^ fp.length : Nat)⟩ : JNum), r3)) = _
  rw [takeDigits_all b hb]
  simp [hne]

/-- The canonical decimal digits `I.FFF` of `i + f / 10 ^ k` parse to
the exact pair over `10 ^ k`. -/
theorem parseMantissa_dec (i f k : Nat) (hf : f < 10 ^ k) :
    parseMantissa (natStr i ++ '.' :: natCharsPad k f)
      = some (⟨(i * 10 ^ k + f : Nat), ((10 : Nat) ^ k : Nat)⟩, []) := by
  obtain ⟨hIdig, hIne, hIval⟩ := natChars_spec (i + 1) i (by omega)
  obtain ⟨hPdig, hPlen, hPval⟩ := natCharsPad_spec k f
  have hIdig' : ∀ c ∈ natStr i, c.isDigit = true := fun c hc => (hIdig c hc).1
  have hIne' : natStr i ≠ [] := hIne
  have hIval' : digitsVal (natStr i) = i := hIval
  rw [parseMantissa_point (natStr i) (natCharsPad k f) hIdig'
    (fun c hc => (hPdig c hc).1) hIne']
  rw [hIval', hPlen, hPval, Nat.mod_eq_of_lt hf]

/-- A nonempty token that starts with neither sign character is handed
to the mantissa parser unchanged. -/
theorem jsParseFloat_nosign (c : Char) (r : List Char)
    (hc1 : c ≠ '-') (hc2 : c ≠ '+')
    (hws : ∀ x ∈ c :: r, x.isWhitespace = false) :
    jsParseFloat (String.mk (c :: r))
      = (parseMantissa (c :: r)).map (fun p => applyExp p.1 p.2) := by
  simp only [jsParseFloat]
  rw [dropWhile_digits (c :: r) hws]
  split
  · rename_i heq
    injection heq with h1 _
    exact absurd h1 hc1
  · rename_i heq
    injection heq with h1 _
    exact absurd h1 hc2
  · rfl

/-- `some k` is recovered from the denominator `10 ^ k` with enough
fuel. -/
theorem pow10Aux_pow :
    ∀ (f k : Nat), k < f → pow10Aux f ((10 : Int) ^ k) = some k := by
  intro f
  induction f with
  | zero => intro k h; omega
  | succ f ih =>
    intro k h
    cases k with
    | zero =>
      rw [pow_zero]
      rfl
    | succ j =>
      have hne1 : (10 : Int) ^ (j + 1) ≠ 1 := by
        have h1 : (1 : Int) < 10 ^ (j + 1) := one_lt_pow₀ (by norm_num) (by omega)
        omega
      have hmod : (10 : Int) ^ (j + 1) % 10 = 0 := by
        rw [pow_succ]
        exact Int.mul_emod_left _ _
      have hnz : (10 : Int) ^ (j + 1) ≠ 0 := pow_ne_zero _ (by norm_num)
      have hdiv : (10 : Int) ^ (j + 1) / 10 = 10 ^ j := by
        rw [pow_succ]
        exact Int.mul_ediv_cancel _ (by norm_num)
      rw [show pow10Aux (f + 1) ((10 : Int) ^ (j + 1))
          = if (10 : Int) ^ (j + 1) = 1 then some 0
            else if (10 : Int) ^ (j + 1) % 10 = 0 ∧ (10 : Int) ^ (j + 1) ≠ 0
              then (pow10Aux f ((10 : Int) ^ (j + 1) / 10)).map Nat.succ
            else none from rfl]
      rw [if_neg hne1, if_pos ⟨hmod, hnz⟩, hdiv, ih j (by omega)]
      rfl

/-- The power-of-ten test recognizes every power of ten. -/
theorem pow10_pow (k : Nat) : pow10 ((10 : Int) ^ k) = some k := by
  unfold pow10
  refine pow10Aux_pow _ k ?_
  rw [Int.natAbs_pow]
  have h1 : k < 10 ^ k := Nat.lt_pow_self (by norm_num) k
  have h2 : (10 : Int).natAbs = 10 := rfl
  rw [h2]
  omega

/-- Stripping trailing zeros is the identity on a canonical pair. -/
theorem stripDec_canon (k : Nat) (m : Int) (hcan : k = 0 ∨ m % 10 ≠ 0) :
    stripDec k m = (k, m) := by
  cases k with
  | zero => rfl
  | succ j =>
    rcases hcan with h0 | hm
    · exact absurd h0 (by omega)
    · rw [show stripDec (j + 1) m
          = if m % 10 = 0 then stripDec j (m / 10) else (j + 1, m) from rfl]
      rw [if_neg hm]

/-- On a canonical power-of-ten pair, `serializeChars` prints exactly
the canonical decimal form. -/
theorem serializeChars_num (m : Int) (k : Nat) (hcan : k = 0 ∨ m % 10 ≠ 0) :
    serializeChars (.Num ⟨m, (10 : Int) ^ k⟩) = decCharsCanon k m := by
  rw [show serializeChars (.Num ⟨m, (10 : Int) ^ k⟩)
      = (match pow10 ((10 : Int) ^ k) with
        | some k1 =>
          match stripDec k1 m with
          | (k2, m2) => decCharsCanon k2 m2
        | none => intChars m ++ '/' :: intChars ((10 : Int) ^ k)) from rfl]
  rw [pow10_pow k]
  show (match stripDec k m with | (k2, m2) => decCharsCanon k2 m2) = decCharsCanon k m
  rw [stripDec_canon k m hcan]

/-- A non-canonical pair, as a non-shortest literal such as `2.50`
produces, denotes the same rational as its canonical form and
serializes to the identical text. -/
theorem serializeChars_unnormalized :
    serializeChars (.Num ⟨250, 100⟩) = serializeChars (.Num ⟨25, 10⟩)
      ∧ (250 : Int) * 10 = 25 * 100 := ⟨rfl, rfl⟩

/-- No character of the canonical decimal form is a token delimiter or
a brace. -/
theorem decCharsCanon_facts (k : Nat) (m : Int) :
    ∀ c ∈ decCharsCanon k m, c ≠ ' ' ∧ c ≠ '\n' ∧ c ≠ '\x7b' ∧ c ≠ '\x7d' := by
  intro c hc
  by_cases hk : k = 0
  · rw [hk, show decCharsCanon 0 m = intChars m from rfl] at hc
    exact intChars_facts m c hc
  · unfold decCharsCanon at hc
    rw [if_neg hk] at hc
    obtain ⟨hIdig, _, _⟩ := natChars_spec (m.natAbs / 10 ^ k + 1) (m.natAbs / 10 ^ k) (by omega)
    obtain ⟨hPdig, _, _⟩ := natCharsPad_spec k (m.natAbs % 10 ^ k)
    rcases List.mem_append.mp hc with h1 | h4
    · rcases List.mem_append.mp h1 with h2 | h3
      · by_cases hm : m < 0
        · rw [if_pos hm] at h2
          obtain rfl := List.mem_singleton.mp h2
          exact ⟨by decide, by decide, by decide, by decide⟩
        · rw [if_neg hm] at h2
          exact absurd h2 (List.not_mem_nil c)
      · have hg := hIdig c h3
        exact ⟨hg.2.1, hg.2.2.1, hg.2.2.2.2.1, hg.2.2.2.2.2.1⟩
    · rcases List.mem_cons.mp h4 with rfl | h5
      · exact ⟨by decide, by decide, by decide, by decide⟩
      · have hg := hPdig c h5
        exact ⟨hg.2.1, hg.2.2.1, hg.2.2.2.2.1, hg.2.2.2.2.2.1⟩

theorem decCharsCanon_ne_nil (k : Nat) (m : Int) : decCharsCanon k m ≠ [] := by
  by_cases hk : k = 0
  · rw [hk, show decCharsCanon 0 m = intChars m from rfl]
    exact intChars_ne_nil m
  · unfold decCharsCanon
    rw [if_neg hk]
    intro h
    have hlen := congrArg List.length h
    simp [List.length_append] at hlen

/-- The canonical decimal printing of `m / 10 ^ k` reparses to exactly
the pair `⟨m, 10 ^ k⟩`. -/
theorem jsParseFloat_decCanon (m : Int) (k : Nat) :
    jsParseFloat (String.mk (decCharsCanon k m)) = some ⟨m, (10 : Int) ^ k⟩ := by
  by_cases hk : k = 0
  · rw [hk, show decCharsCanon 0 m = intChars m from rfl, jsParseFloat_intChars]
    rw [pow_zero]
  · have hk10 : (0 : Nat) < 10 ^ k := pow_pos (by norm_num) k
    have hF : m.natAbs % 10 ^ k < 10 ^ k := Nat.mod_lt _ hk10
    obtain ⟨hIdig, hIne, _⟩ :=
      natChars_spec (m.natAbs / 10 ^ k + 1) (m.natAbs / 10 ^ k) (by omega)
    have hIne' : natStr (m.natAbs / 10 ^ k) ≠ [] := hIne
    obtain ⟨hPdig, _, _⟩ := natCharsPad_spec k (m.natAbs % 10 ^ k)
    have hman := parseMantissa_dec (m.natAbs / 10 ^ k) (m.natAbs % 10 ^ k) k hF
    have hNat : m.natAbs / 10 ^ k * 10 ^ k + m.natAbs % 10 ^ k = m.natAbs :=
      Nat.div_add_mod' _ _
    have hws : ∀ c ∈ natStr (m.natAbs / 10 ^ k) ++ '.' :: natCharsPad k (m.natAbs % 10 ^ k),
        c.isWhitespace = false := by
      intro c hc
      rcases List.mem_append.mp hc with h1 | h2
      · exact (hIdig c h1).2.2.2.2.2.2.2.2
      rcases List.mem_cons.mp h2 with rfl | h3
      · decide
      · exact (hPdig c h3).2.2.2.2.2.2.2.2
    have h2 : (((10 : Nat) ^ k : Nat) : Int) = (10 : Int) ^ k := by push_cast; ring
    unfold decCharsCanon
    rw [if_neg hk]
    by_cases hm : m < 0
    · rw [if_pos hm]
      simp only [jsParseFloat]
      have hws' : ∀ c ∈ ['-'] ++ natStr (m.natAbs / 10 ^ k)
          ++ '.' :: natCharsPad k (m.natAbs % 10 ^ k), c.isWhitespace = false := by
        intro c hc
        rcases List.mem_append.mp hc with h1 | h2
        · rcases List.mem_append.mp h1 with h1a | h1b
          · obtain rfl := List.mem_singleton.mp h1a
            decide
          · exact (hIdig c h1b).2.2.2.2.2.2.2.2
        · rcases List.mem_cons.mp h2 with rfl | h3
          · decide
          · exact (hPdig c h3).2.2.2.2.2.2.2.2
      rw [dropWhile_digits _ hws']
      show (parseMantissa (natStr (m.natAbs / 10 ^ k)
          ++ '.' :: natCharsPad k (m.natAbs % 10 ^ k))).map
          (fun p => (⟨-(applyExp p.1 p.2).n, (applyExp p.1 p.2).d⟩ : JNum))
          = some ⟨m, (10 : Int) ^ k⟩
      rw [hman]
      show some (⟨-((m.natAbs / 10 ^ k * 10 ^ k + m.natAbs % 10 ^ k : Nat) : Int),
          (((10 : Nat) ^ k : Nat) : Int)⟩ : JNum) = some ⟨m, (10 : Int) ^ k⟩
      have h1 : -((m.natAbs / 10 ^ k * 10 ^ k + m.natAbs % 10 ^ k : Nat) : Int) = m := by
        rw [hNat]
        omega
      rw [h1, h2]
    · rw [if_neg hm, List.nil_append]
      rcases hA : natStr (m.natAbs / 10 ^ k) with _ | ⟨c, cs'⟩
      · exact absurd hA hIne'
      have hcmem : c ∈ natStr (m.natAbs / 10 ^ k) := by
        rw [hA]
        exact List.mem_cons_self c cs'
      have hcfacts := hIdig c hcmem
      rw [List.cons_append]
      rw [jsParseFloat_nosign c (cs' ++ '.' :: natCharsPad k (m.natAbs % 10 ^ k))
        hcfacts.2.2.2.2.2.2.1 hcfacts.2.2.2.2.2.2.2.1
        (by
          rw [← List.cons_append, ← hA]
          exact hws)]
      rw [← List.cons_append, ← hA, hman]
      show some (⟨((m.natAbs / 10 ^ k * 10 ^ k + m.natAbs % 10 ^ k : Nat) : Int),
          (((10 : Nat) ^ k : Nat) : Int)⟩ : JNum) = some ⟨m, (10 : Int) ^ k⟩
      have h1 : ((m.natAbs / 10 ^ k * 10 ^ k + m.natAbs % 10 ^ k : Nat) : Int) = m := by
        rw [hNat]
        omega
      rw [h1, h2]

theorem serTokens_num (m : Int) (k : Nat) (hcan : k = 0 ∨ m % 10 ≠ 0) :
    serTokens (.Num ⟨m, (10 : Int) ^ k⟩) = [String.mk (decCharsCanon k m)] := by
  unfold serTokens
  rw [serializeChars_num m k hcan]
  rw [splitOnChar_no_sep _ _ (fun x hx => (decCharsCanon_facts k m x hx).1)]
  rfl

theorem serTokens_operator (w : String) (hsp : ' ' ∉ w.data) :
    serTokens (.Operator w) = [w] := by
  unfold serTokens
  rw [show serializeChars (.Operator w) = w.data from rfl]
  rw [splitOnChar_no_sep _ _ (fun x hx heq => hsp (by rw [← heq]; exact hx))]
  rw [List.map_singleton]

theorem serTokens_block (vs : List Value) :
    serTokens (.Block vs)
      = "\x7b" :: ((splitOnChar ' ' (serializeChars.serJoin vs)).map String.mk
          ++ ["\x7d"]) := by
  unfold serTokens
  rw [show serializeChars (.Block vs)
      = '\x7b' :: ' ' :: (serializeChars.serJoin vs ++ ' ' :: ['\x7d']) from rfl]
  rw [splitOnChar_cons_sep ' ' '\x7b' (by decide)]
  rw [splitOnChar_append]
  rw [show splitOnChar ' ' ['\x7d'] = [['\x7d']] from rfl]
  rw [List.map_cons, List.map_append]
  rfl

theorem splitJoin_cons (v v2 : Value) (vs'' : List Value) :
    (splitOnChar ' ' (serializeChars.serJoin (v :: v2 :: vs''))).map String.mk
      = serTokens v ++ (splitOnChar ' ' (serializeChars.serJoin (v2 :: vs''))).map String.mk := by
  rw [show serializeChars.serJoin (v :: v2 :: vs'')
      = serializeChars v ++ ' ' :: serializeChars.serJoin (v2 :: vs'') from rfl]
  rw [splitOnChar_append, List.map_append]
  rfl

/-- A single token that `parse` evaluates as the value `v` appends `v`
to the open block body. -/
theorem capture_word (fuel : Nat) (w : String) (v : Value) (s : VmState)
    (b : List Value) (brest : List (List Value)) (hb : s.blocks = b :: brest)
    (hpw : parseWord fuel w s = evalV fuel v s) :
    (parseTokens fuel [w] s).2 = .ok { s with blocks := (b ++ [v]) :: brest } := by
  show (bindRes (parseWord fuel w s) (parseTokens fuel [])).2 = _
  rw [hpw, evalV_append fuel v s b brest hb, bindRes_ok]
  rfl

/-- Feeding the serialized tokens of a space-joined value list while a
block is open appends exactly those values to the open body. -/
theorem capture_join :
    ∀ (vs : List Value),
      (∀ v ∈ vs, ∀ (fuel : Nat) (s : VmState) (b : List Value) (brest : List (List Value)),
        s.blocks = b :: brest →
        (parseTokens fuel (serTokens v) s).2 = .ok { s with blocks := (b ++ [v]) :: brest }) →
      ∀ (fuel : Nat) (s : VmState) (cur : List Value) (brest : List (List Value)),
        s.blocks = cur :: brest →
        (parseTokens fuel ((splitOnChar ' ' (serializeChars.serJoin vs)).map String.mk) s).2
          = .ok { s with blocks := (cur ++ vs) :: brest } := by
  intro vs
  induction vs with
  | nil =>
    intro _ fuel s cur brest hb
    rw [show serializeChars.serJoin [] = ([] : List Char) from rfl]
    rw [show splitOnChar ' ' [] = [[]] from rfl]
    show (bindRes (parseWord fuel "" s) (parseTokens fuel [])).2 = _
    rw [show parseWord fuel "" s = ([.state s], .ok s) from rfl, bindRes_ok]
    show Except.ok s = _
    rcases s with ⟨stk, vars, blocks⟩
    simp only at hb
    subst hb
    simp
  | cons v vs' ih =>
    intro hP fuel s cur brest hb
    cases vs' with
    | nil =>
      rw [show serializeChars.serJoin [v] = serializeChars v from rfl]
      exact hP v (List.mem_singleton_self v) fuel s cur brest hb
    | cons v2 vs'' =>
      rw [splitJoin_cons, parseTokens_append, bindRes_snd]
      have h1 := hP v (by simp) fuel s cur brest hb
      rcases hq : parseTokens fuel (serTokens v) s with ⟨evs1, r1⟩
      rw [hq] at h1
      have hr1 : r1 = .ok { s with blocks := (cur ++ [v]) :: brest } := h1
      subst hr1
      show (parseTokens fuel ((splitOnChar ' ' (serializeChars.serJoin (v2 :: vs''))).map String.mk)
          { s with blocks := (cur ++ [v]) :: brest }).2 = _
      rw [ih (fun u hu => hP u (by simp [hu])) fuel
        { s with blocks := (cur ++ [v]) :: brest } (cur ++ [v]) brest rfl]
      simp [List.append_assoc]
  
/-- Any capturable value's serialized tokens, fed while a block is open,
append exactly that value to the open body. -/
theorem capture_parse :
    ∀ (v : Value), Capturable v →
    ∀ (fuel : Nat) (s : VmState) (b : List Value) (brest : List (List Value)),
      s.blocks = b :: brest →
      (parseTokens fuel (serTokens v) s).2
        = .ok { s with blocks := (b ++ [v]) :: brest } := by
  intro v hv
  induction hv with
  | num m k hcan =>
    intro fuel s b brest hb
    rw [serTokens_num m k hcan]
    refine capture_word fuel _ _ s b brest hb ?_
    refine parseWord_num fuel _ ⟨m, (10 : Int) ^ k⟩ s ?_ ?_ ?_ (jsParseFloat_decCanon m k)
    · exact String_mk_ne _ _ (by
        rw [show ("" : String).data = [] from rfl]
        exact decCharsCanon_ne_nil k m)
    · refine String_mk_ne _ _ ?_
      intro heq
      have hmem : '\x7b' ∈ decCharsCanon k m := by
        rw [heq]
        exact List.mem_singleton_self '\x7b'
      exact absurd rfl (decCharsCanon_facts k m _ hmem).2.2.1
    · refine String_mk_ne _ _ ?_
      intro heq
      have hmem : '\x7d' ∈ decCharsCanon k m := by
        rw [heq]
        exact List.mem_singleton_self '\x7d'
      exact absurd rfl (decCharsCanon_facts k m _ hmem).2.2.2
  | op w h1 h2 h3 hf hslash hsp hnl =>
    intro fuel s b brest hb
    rw [serTokens_operator w hsp]
    exact capture_word fuel w (.Operator w) s b brest hb
      (parseWord_operator fuel w s h1 h2 h3 hf hslash)
  | block vs hall ih =>
    intro fuel s b brest hb
    rcases s with ⟨stk, vars, blocks⟩
    simp only at hb
    subst hb
    rw [serTokens_block]
    show (bindRes (parseWord fuel "\x7b" ⟨stk, vars, b :: brest⟩)
        (parseTokens fuel ((splitOnChar ' ' (serializeChars.serJoin vs)).map String.mk
          ++ ["\x7d"]))).2 = _
    rw [show parseWord fuel "\x7b" ⟨stk, vars, b :: brest⟩
        = ([.state ⟨stk, vars, [] :: b :: brest⟩], .ok ⟨stk, vars, [] :: b :: brest⟩)
        from rfl]
    rw [bindRes_ok]
    show (parseTokens fuel ((splitOnChar ' ' (serializeChars.serJoin vs)).map String.mk
        ++ ["\x7d"]) ⟨stk, vars, [] :: b :: brest⟩).2 = _
    rw [parseTokens_append, bindRes_snd]
    have hmid := capture_join vs ih fuel ⟨stk, vars, [] :: b :: brest⟩ [] (b :: brest) rfl
    rcases hq : parseTokens fuel ((splitOnChar ' ' (serializeChars.serJoin vs)).map String.mk)
        ⟨stk, vars, [] :: b :: brest⟩ with ⟨evs1, r1⟩
    rw [hq] at hmid
    have hr1 : r1 = .ok ⟨stk, vars, ([] ++ vs) :: b :: brest⟩ := hmid
    subst hr1
    show (bindRes (parseWord fuel "\x7d" ⟨stk, vars, ([] ++ vs) :: b :: brest⟩)
        (parseTokens fuel [])).2 = _
    rw [show parseWord fuel "\x7d" ⟨stk, vars, ([] ++ vs) :: b :: brest⟩
        = prependEvs [.state ⟨stk, vars, b :: brest⟩]
            (evalV fuel (.Block ([] ++ vs)) ⟨stk, vars, b :: brest⟩) from rfl]
    rw [evalV_append fuel _ _ b brest rfl, prependEvs_eq, bindRes_ok]
    show Except.ok (⟨stk, vars, (b ++ [.Block ([] ++ vs)]) :: brest⟩ : VmState) = _
    rw [List.nil_append]

theorem serJoin_no_nl :
    ∀ (vs : List Value), (∀ v ∈ vs, '\n' ∉ serializeChars v) →
      '\n' ∉ serializeChars.serJoin vs := by
  intro vs
  induction vs with
  | nil =>
    intro _
    rw [show serializeChars.serJoin [] = ([] : List Char) from rfl]
    exact List.not_mem_nil '\n'
  | cons v vs' ih =>
    intro h
    cases vs' with
    | nil =>
      rw [show serializeChars.serJoin [v] = serializeChars v from rfl]
      exact h v (List.mem_singleton_self v)
    | cons v2 vs'' =>
      rw [show serializeChars.serJoin (v :: v2 :: vs'')
          = serializeChars v ++ ' ' :: serializeChars.serJoin (v2 :: vs'') from rfl]
      intro hmem
      rcases List.mem_append.mp hmem with h1 | h2
      · exact h v (by simp) h1
      · rcases List.mem_cons.mp h2 with heq | h3
        · exact absurd heq (by decide)
        · exact ih (fun u hu => h u (by simp [hu])) h3

theorem serialize_no_nl : ∀ (v : Value), Capturable v → '\n' ∉ serializeChars v := by
  intro v hv
  induction hv with
  | num m k hcan =>
    rw [serializeChars_num m k hcan]
    intro hmem
    exact absurd rfl (decCharsCanon_facts k m _ hmem).2.1
  | op w h1 h2 h3 hf hslash hsp hnl =>
    exact hnl
  | block vs hall ih =>
    rw [show serializeChars (.Block vs)
        = '\x7b' :: ' ' :: (serializeChars.serJoin vs ++ [' ', '\x7d']) from rfl]
    intro hmem
    rcases List.mem_cons.mp hmem with heq | h2
    · exact absurd heq (by decide)
    rcases List.mem_cons.mp h2 with heq | h3
    · exact absurd heq (by decide)
    rcases List.mem_append.mp h3 with h4 | h5
    · exact serJoin_no_nl vs ih h4
    rcases List.mem_cons.mp h5 with heq | h6
    · exact absurd heq (by decide)
    rcases List.mem_cons.mp h6 with heq | h7
    · exact absurd heq (by decide)
    · exact absurd h7 (List.not_mem_nil _)

theorem tokenize_serialize_block (vs : List Value) (hall : ∀ v ∈ vs, Capturable v) :
    tokenize (serializeValue (.Block vs)) = serTokens (.Block vs) := by
  unfold tokenize serializeValue
  rw [show (String.mk (serializeChars (.Block vs))).data = serializeChars (.Block vs)
      from rfl]
  rw [splitOnChar_no_sep '\n' _ (fun x hx heq =>
    serialize_no_nl (.Block vs) (Capturable.block vs hall) (by rw [← heq]; exact hx))]
  simp [serTokens]

theorem evalV_push_block (fuel : Nat) (bv stk : List Value) (vars : List Scope) :
    evalV fuel (.Block bv) ⟨stk, vars, []⟩
      = ([.state ⟨.Block bv :: stk, vars, []⟩], .ok ⟨.Block bv :: stk, vars, []⟩) := by
  cases fuel <;> rfl

/-- Counterexample to claim C9 as stated: the block literal `{ /x }`
captures the Block holding Symbol `x`, but `serializeValue` prints a
Symbol without its leading slash, so the serialization `{ x }`
re-parses to a Block holding the Operator `x` — a different kind, not
an equivalent sequence. -/
theorem c9_roundtrip_counterexample :
    finalStack (runProgram 9 "\x7b /x \x7d") = .ok [.Block [.Symbol "x"]]
    ∧ serializeValue (.Block [.Symbol "x"]) = "\x7b x \x7d"
    ∧ finalStack (runProgram 9 (serializeValue (.Block [.Symbol "x"])))
        = .ok [.Block [.Operator "x"]]
    ∧ Value.Block [.Operator "x"] ≠ .Block [.Symbol "x"] := by
  refine ⟨rfl, rfl, rfl, ?_⟩
  intro h
  injection h with h1
  injection h1 with h2 _
  exact Value.noConfusion h2

/-- Claim C9 as amended: for every Block whose captured values avoid
Symbols — number literals in canonical decimal form (the exact pair
`m / 10 ^ k` with the fraction not ending in a zero digit, the model's
unique representative of the JavaScript double, covering non-integral
literals such as `2.5`), genuine operator words and nested such blocks
— serializing it and re-tokenizing/re-parsing the text through the
interpreter pushes exactly the same Block (same kinds and payloads in
the same order).  Blocks containing Symbols do not round-trip, because
a Symbol is printed without its leading slash and re-parses as an
Operator. -/
theorem c9_roundtrip_amended :
    ∀ (vs : List Value), (∀ v ∈ vs, Capturable v) →
    ∀ (fuel : Nat) (s : VmState), s.blocks = [] →
      (parseTokens fuel (tokenize (serializeValue (.Block vs))) s).2
        = .ok { s with stack := .Block vs :: s.stack } := by
  intro vs hall fuel s hb
  rw [tokenize_serialize_block vs hall, serTokens_block]
  rcases s with ⟨stk, vars, blocks⟩
  simp only at hb
  subst hb
  show (bindRes (parseWord fuel "\x7b" ⟨stk, vars, []⟩)
      (parseTokens fuel ((splitOnChar ' ' (serializeChars.serJoin vs)).map String.mk
        ++ ["\x7d"]))).2 = _
  rw [show parseWord fuel "\x7b" ⟨stk, vars, []⟩
      = ([.state ⟨stk, vars, [[]]⟩], .ok ⟨stk, vars, [[]]⟩) from rfl]
  rw [bindRes_ok]
  show (parseTokens fuel ((splitOnChar ' ' (serializeChars.serJoin vs)).map String.mk
      ++ ["\x7d"]) ⟨stk, vars, [[]]⟩).2 = _
  rw [parseTokens_append, bindRes_snd]
  have hmid := capture_join vs (fun v hv => capture_parse v (hall v hv)) fuel
    ⟨stk, vars, [[]]⟩ [] [] rfl
  rcases hq : parseTokens fuel ((splitOnChar ' ' (serializeChars.serJoin vs)).map String.mk)
      ⟨stk, vars, [[]]⟩ with ⟨evs1, r1⟩
  rw [hq] at hmid
  have hr1 : r1 = .ok ⟨stk, vars, [[] ++ vs]⟩ := hmid
  subst hr1
  show (bindRes (parseWord fuel "\x7d" ⟨stk, vars, [[] ++ vs]⟩)
      (parseTokens fuel [])).2 = _
  rw [show parseWord fuel "\x7d" ⟨stk, vars, [[] ++ vs]⟩
      = prependEvs [.state ⟨stk, vars, []⟩]
          (evalV fuel (.Block ([] ++ vs)) ⟨stk, vars, []⟩) from rfl]
  rw [evalV_push_block, prependEvs_eq, bindRes_ok]
  show Except.ok (⟨.Block ([] ++ vs) :: stk, vars, []⟩ : VmState) = _
  rw [List.nil_append]

/-- Witness for C9 as amended: the Block `{ 2.5 10 x }` — with the
non-integral number 2.5 — round-trips through serialization and
re-parsing. -/
theorem c9_roundtrip_amended_witness :
    (parseTokens 9 (tokenize (serializeValue
        (.Block [.Num ⟨25, 10⟩, .Num ⟨10, 1⟩, .Operator "x"]))) initState).2
      = .ok { initState with
          stack := [.Block [.Num ⟨25, 10⟩, .Num ⟨10, 1⟩, .Operator "x"]] } :=
  c9_roundtrip_amended [.Num ⟨25, 10⟩, .Num ⟨10, 1⟩, .Operator "x"]
    (by
      intro v hv
      rcases List.mem_cons.mp hv with rfl | hv2
      · exact Capturable.num 25 1 (Or.inr (by decide))
      rcases List.mem_cons.mp hv2 with rfl | hv3
      · exact Capturable.num 10 0 (Or.inl rfl)
      rcases List.mem_cons.mp hv3 with rfl | hv4
      · refine Capturable.op "x" (by decide) (by decide) (by decide) rfl ?_ (by decide) (by decide)
        intro r hcontra
        injection hcontra with hc _
        exact absurd hc (by decide)
      · exact absurd hv4 (List.not_mem_nil v))
    9 initState rfl
